import Mathlib

/-!
Verification of the storage, authentication and PDF-text layer of
frontend/app.py (GameSense AI).

The Python module is shallowly embedded: the persisted JSON document is a
`Json` value, the GitHub contents API is a `World` state holding files with
revision tokens, and every Python function that the claims mention is
translated to a Lean function over these types.  Python runtime exceptions
are tracked with `Except PyErr`.  Strings are modelled as `List Char`.
-/

namespace GS

/-- Shorthand turning a string literal into the `List Char` used everywhere. -/
def lc (s : String) : List Char := s.data

/-- JSON values, as produced by the Python json module for this app.
Floating point numbers never occur in the stored documents (the app only
writes strings, ints, lists and dicts) and are outside the model. -/
inductive Json : Type where
  | null : Json
  | bool (b : Bool) : Json
  | num (n : Int) : Json
  | str (s : List Char) : Json
  | arr (elems : List Json) : Json
  | obj (members : List (List Char × Json)) : Json
deriving Repr

-- Size measure used for parser fuel and termination arguments.
mutual
def Json.need : Json → Nat
  | .null => 1
  | .bool _ => 1
  | .num _ => 1
  | .str _ => 1
  | .arr xs => 1 + Json.needItems xs
  | .obj ms => 1 + Json.needMembers ms
def Json.needItems : List Json → Nat
  | [] => 1
  | x :: xs => 1 + Json.need x + Json.needItems xs
def Json.needMembers : List (List Char × Json) → Nat
  | [] => 1
  | m :: ms => 1 + Json.need m.2 + Json.needMembers ms
end

/-- Lowercase hexadecimal digit, as emitted by json.dumps in unicode escapes. -/
def hexDigit (n : Nat) : Char :=
  if n < 10 then Char.ofNat (48 + n) else Char.ofNat (87 + n)

/-- Escaping of one character inside a JSON string literal, following
json.dumps with ensure_ascii=False: only the quote, the backslash and
control characters are escaped, everything else is emitted raw. -/
def escChar (c : Char) : List Char :=
  if c = '"' then ['\\', '"']
  else if c = '\\' then ['\\', '\\']
  else if c = '\n' then ['\\', 'n']
  else if c = '\t' then ['\\', 't']
  else if c = '\r' then ['\\', 'r']
  else if c = Char.ofNat 8 then ['\\', 'b']
  else if c = Char.ofNat 12 then ['\\', 'f']
  else if c.toNat < 32 then
    ['\\', 'u', '0', '0', hexDigit (c.toNat / 16), hexDigit (c.toNat % 16)]
  else [c]

/-- JSON string literal for the character list s. -/
def encStr (s : List Char) : List Char :=
  '"' :: (s.flatMap escChar ++ ['"'])

/-- Decimal digit character for d below 10. -/
def digitChar (d : Nat) : Char := Char.ofNat (48 + d)

/-- Decimal representation of a natural number, most significant digit first. -/
def natToChars (n : Nat) : List Char :=
  if n = 0 then ['0'] else ((Nat.digits 10 n).map digitChar).reverse

/-- Decimal representation of a Python int. -/
def intToChars : Int → List Char
  | Int.ofNat n => natToChars n
  | Int.negSucc m => '-' :: natToChars (m + 1)

/-- Newline plus the two-space indentation emitted by json.dumps(indent=2)
before an element nested at depth ind. -/
def nlIndent (ind : Nat) : List Char :=
  '\n' :: List.replicate (2 * ind) ' '

-- The writer side of json.dumps(v, indent=2, ensure_ascii=False).  A
-- container at depth ind puts every child on its own line at depth ind+1
-- and closes on a fresh line at depth ind; empty containers stay compact.
mutual
def encodeVal (ind : Nat) : Json → List Char
  | .null => ['\x6e', '\x75', '\x6c', '\x6c']
  | .bool true => ['\x74', '\x72', '\x75', '\x65']
  | .bool false => ['\x66', '\x61', '\x6c', '\x73', '\x65']
  | .num n => intToChars n
  | .str s => encStr s
  | .arr [] => ['[', ']']
  | .arr (x :: xs) => '[' :: (encodeArrItems ind x xs ++ nlIndent ind ++ [']'])
  | .obj [] => ['{', '}']
  | .obj (m :: ms) => '{' :: (encodeObjItems ind m ms ++ nlIndent ind ++ ['}'])
termination_by v => Json.need v
decreasing_by
  all_goals simp [Json.need, Json.needItems, Json.needMembers]
def encodeArrItems (ind : Nat) (x : Json) (xs : List Json) : List Char :=
  nlIndent (ind + 1) ++ encodeVal (ind + 1) x ++
    match xs with
    | [] => []
    | y :: ys => ',' :: encodeArrItems ind y ys
termination_by 1 + Json.need x + Json.needItems xs
decreasing_by
  all_goals simp [Json.need, Json.needItems, Json.needMembers]
  all_goals omega
def encodeObjItems (ind : Nat) (m : List Char × Json) (ms : List (List Char × Json)) :
    List Char :=
  nlIndent (ind + 1) ++ encStr m.1 ++ [':', ' '] ++ encodeVal (ind + 1) m.2 ++
    match ms with
    | [] => []
    | y :: ys => ',' :: encodeObjItems ind y ys
termination_by 1 + Json.need m.2 + Json.needMembers ms
decreasing_by
  all_goals simp [Json.need, Json.needItems, Json.needMembers]
  all_goals omega
end

/-- json.dumps(v, indent=2, ensure_ascii=False) as used by the app. -/
def dumps (v : Json) : List Char := encodeVal 0 v

/-- Whitespace accepted between JSON tokens by json.loads. -/
def isWsChar (c : Char) : Bool :=
  c = ' ' || c = '\t' || c = '\n' || c = '\r'

/-- Drop leading inter-token whitespace. -/
def skipWs : List Char → List Char
  | [] => []
  | c :: cs => if isWsChar c then skipWs cs else c :: cs

/-- Value of one hexadecimal digit character. -/
def hexVal (c : Char) : Option Nat :=
  if 48 ≤ c.toNat ∧ c.toNat ≤ 57 then some (c.toNat - 48)
  else if 97 ≤ c.toNat ∧ c.toNat ≤ 102 then some (c.toNat - 87)
  else if 65 ≤ c.toNat ∧ c.toNat ≤ 70 then some (c.toNat - 55)
  else none

/-- Codepoints that fit in a Char and are not surrogates.  The model does
not combine surrogate escape pairs the way Python does; the encoder never
emits them. -/
def validCp (n : Nat) : Bool :=
  decide (n < 55296) || (decide (57344 ≤ n) && decide (n < 1114112))

/-- Escape codes accepted after a backslash, except the u escape. -/
def simpleEsc (e : Char) : Option Char :=
  if e = '"' then some '"'
  else if e = '\\' then some '\\'
  else if e = '/' then some '/'
  else if e = 'n' then some '\n'
  else if e = 't' then some '\t'
  else if e = 'r' then some '\r'
  else if e = 'b' then some (Char.ofNat 8)
  else if e = 'f' then some (Char.ofNat 12)
  else none

/-- Four hexadecimal digits and the rest of the input. -/
def parseHex4 : List Char → Option (Nat × List Char)
  | a :: b :: c :: d :: rest =>
    (hexVal a).bind fun ha =>
      (hexVal b).bind fun hb =>
        (hexVal c).bind fun hc =>
          (hexVal d).map fun hd => (((ha * 16 + hb) * 16 + hc) * 16 + hd, rest)
  | _ => none

theorem parseHex4_len (s : List Char) (n : Nat) (r : List Char)
    (h : parseHex4 s = some (n, r)) : r.length + 4 = s.length := by
  match s with
  | [] => simp [parseHex4] at h
  | [a] => simp [parseHex4] at h
  | [a, b] => simp [parseHex4] at h
  | [a, b, c] => simp [parseHex4] at h
  | a :: b :: c :: d :: rest =>
    simp only [parseHex4, Option.bind_eq_some, Option.map_eq_some'] at h
    obtain ⟨_, _, _, _, _, _, _, _, heq⟩ := h
    cases heq
    simp

theorem parseHex4_get_len_lt (s : List Char) (h : (parseHex4 s).isSome) :
    ((parseHex4 s).get h).2.length < s.length + 1 := by
  have := parseHex4_len s ((parseHex4 s).get h).1 ((parseHex4 s).get h).2
    (Option.some_get h).symm
  omega

-- Body of a JSON string literal after the opening quote (parseStrRest)
-- and the escape handler after a backslash (parseStrEsc).  Raw control
-- characters are rejected, as in strict json.loads.
mutual
def parseStrRest : List Char → Option (List Char × List Char)
  | [] => none
  | c :: rest =>
    if c = '"' then some ([], rest)
    else if c = '\\' then parseStrEsc rest
    else if c.toNat < 32 then none
    else (parseStrRest rest).map (fun p => (c :: p.1, p.2))
termination_by s => s.length
decreasing_by all_goals simp
def parseStrEsc : List Char → Option (List Char × List Char)
  | [] => none
  | e :: rest2 =>
    match simpleEsc e with
    | some d => (parseStrRest rest2).map (fun p => (d :: p.1, p.2))
    | none =>
      if e = 'u' then
        if h : (parseHex4 rest2).isSome then
          if validCp ((parseHex4 rest2).get h).1 then
            (parseStrRest ((parseHex4 rest2).get h).2).map
              (fun p => (Char.ofNat ((parseHex4 rest2).get h).1 :: p.1, p.2))
          else none
        else none
      else none
termination_by s => s.length
decreasing_by
  all_goals simp
  apply parseHex4_get_len_lt
end

/-- Decimal digit test. -/
def isDigitChar (c : Char) : Bool :=
  48 ≤ c.toNat && c.toNat ≤ 57

/-- Numeric value of a big-endian digit character list. -/
def charsToNat (ds : List Char) : Nat :=
  Nat.ofDigits 10 ((ds.map fun c => c.toNat - 48).reverse)

/-- Characters that may not directly follow an integer literal: another
digit would extend it, and a fraction or exponent marker would make it a
float, which the model rejects. -/
def numLikeChar (c : Char) : Bool :=
  isDigitChar c || c = '.' || c = 'e' || c = 'E'

/-- Parse an unsigned JSON integer (no leading zeros, and no fraction or
exponent marker after it: floats are outside the model). -/
def parseNumCore (t : List Char) : Option (Nat × List Char) :=
  let ds := t.takeWhile isDigitChar
  let rest := t.dropWhile isDigitChar
  if ds = [] then none
  else if ds.head? = some '0' ∧ ds ≠ ['0'] then none
  else if (rest.head?.map numLikeChar).getD false then none
  else some (charsToNat ds, rest)

/-- Parse a JSON integer with optional minus sign. -/
def parseNum (s : List Char) : Option (Int × List Char) :=
  if s.head? = some '-' then (parseNumCore s.tail).map (fun p => (-(p.1 : Int), p.2))
  else (parseNumCore s).map (fun p => ((p.1 : Int), p.2))

-- The reader side of json.loads, fuel-indexed.  Every recursive call
-- consumes one unit of fuel; loads supplies more fuel than any input can
-- use.
/-- Match the tail w of a fixed literal word such as null or true. -/
def parseLit (w : List Char) (v : Json) (s : List Char) : Option (Json × List Char) :=
  if s.take w.length = w then some (v, s.drop w.length) else none

mutual
def parseVal : Nat → List Char → Option (Json × List Char)
  | 0, _ => none
  | Nat.succ fuel, s =>
    match skipWs s with
    | [] => none
    | c :: rest =>
      if c = '{' then
        let r := skipWs rest
        if r.head? = some '}' then some (.obj [], r.tail)
        else (parseMembers fuel r).map (fun p => (Json.obj p.1, p.2))
      else if c = '[' then
        let r := skipWs rest
        if r.head? = some ']' then some (.arr [], r.tail)
        else (parseItems fuel r).map (fun p => (Json.arr p.1, p.2))
      else if c = '"' then (parseStrRest rest).map (fun p => (Json.str p.1, p.2))
      else if c = 'n' then parseLit ['u', 'l', 'l'] .null rest
      else if c = 't' then parseLit ['r', 'u', 'e'] (.bool true) rest
      else if c = 'f' then parseLit ['a', 'l', 's', 'e'] (.bool false) rest
      else (parseNum (c :: rest)).map (fun p => (Json.num p.1, p.2))
def parseItems : Nat → List Char → Option (List Json × List Char)
  | 0, _ => none
  | Nat.succ fuel, s =>
    (parseVal fuel s).bind fun vr =>
      let t := skipWs vr.2
      if t.head? = some ',' then
        (parseItems fuel t.tail).map fun p => (vr.1 :: p.1, p.2)
      else if t.head? = some ']' then some ([vr.1], t.tail)
      else none
def parseMembers : Nat → List Char → Option (List (List Char × Json) × List Char)
  | 0, _ => none
  | Nat.succ fuel, s =>
    match skipWs s with
    | [] => none
    | c :: rest =>
      if c = '"' then
        (parseStrRest rest).bind fun kr =>
          let t := skipWs kr.2
          if t.head? = some ':' then
            (parseVal fuel t.tail).bind fun vr =>
              let t3 := skipWs vr.2
              if t3.head? = some ',' then
                (parseMembers fuel t3.tail).map fun p => ((kr.1, vr.1) :: p.1, p.2)
              else if t3.head? = some '}' then some ([(kr.1, vr.1)], t3.tail)
              else none
          else none
      else none
end

/-- json.loads for this app: parse one JSON document, allowing trailing
whitespace only. -/
def loads (s : List Char) : Option Json :=
  match parseVal (s.length + 1) s with
  | some (v, r) => if skipWs r = [] then some v else none
  | none => none

/-! ### Round-trip: loads (dumps v) = some v -/

theorem toNat_ofNat_valid (n : Nat) (h : n.isValidChar) : (Char.ofNat n).toNat = n := by
  simp only [Char.ofNat, dif_pos h]
  simp [Char.ofNatAux, Char.toNat, UInt32.toNat, UInt32.ofNatCore]

theorem ofNat_toNat_char (c : Char) : Char.ofNat c.toNat = c :=
  Char.ofNat_toNat c

theorem char_eq_iff_toNat (c d : Char) : c = d ↔ c.toNat = d.toNat := by
  constructor
  · intro h; rw [h]
  · intro h
    have := congrArg Char.ofNat h
    rwa [ofNat_toNat_char, ofNat_toNat_char] at this

/-- Predicate: a list is inter-token whitespace only. -/
def wsOnly (l : List Char) : Prop := ∀ c ∈ l, isWsChar c = true

/-- Predicate: the given remainder cannot extend a preceding integer
literal. -/
def numStop (rest : List Char) : Prop :=
  (rest.head?.map numLikeChar).getD false = false

theorem skipWs_nil : skipWs [] = [] := rfl

theorem skipWs_cons_ws (c : Char) (s : List Char) (h : isWsChar c = true) :
    skipWs (c :: s) = skipWs s := by
  simp [skipWs, h]

theorem skipWs_cons_not_ws (c : Char) (s : List Char) (h : isWsChar c = false) :
    skipWs (c :: s) = c :: s := by
  simp [skipWs, h]

theorem skipWs_app (ws s : List Char) (h : wsOnly ws) : skipWs (ws ++ s) = skipWs s := by
  induction ws with
  | nil => rfl
  | cons c cs ih =>
    have hc : isWsChar c = true := h c (List.mem_cons_self c cs)
    have hcs : wsOnly cs := fun d hd => h d (List.mem_cons_of_mem c hd)
    simp [skipWs_cons_ws c _ hc, ih hcs]

theorem nlIndent_wsOnly (ind : Nat) : wsOnly (nlIndent ind) := by
  intro c hc
  simp only [nlIndent, List.mem_cons] at hc
  rcases hc with h | h
  · subst h; rfl
  · have := List.eq_of_mem_replicate h
    subst this; rfl

theorem hexVal_hexDigit (d : Nat) (h : d < 16) : hexVal (hexDigit d) = some d := by
  by_cases h10 : d < 10
  · have ht : (hexDigit d).toNat = 48 + d := by
      simp only [hexDigit, if_pos h10]
      exact toNat_ofNat_valid _ (Or.inl (by omega))
    simp only [hexVal, ht]
    rw [if_pos (by omega)]
    congr 1
    omega
  · have ht : (hexDigit d).toNat = 87 + d := by
      simp only [hexDigit, if_neg h10]
      exact toNat_ofNat_valid _ (Or.inl (by omega))
    simp only [hexVal, ht]
    rw [if_neg (by omega), if_pos (by omega)]
    congr 1
    omega

theorem parseStrRest_rt (s rest : List Char) :
    parseStrRest (s.flatMap escChar ++ '"' :: rest) = some (s, rest) := by
  induction s with
  | nil => simp [parseStrRest]
  | cons c cs ih =>
    have hstep : (c :: cs).flatMap escChar ++ '"' :: rest =
        escChar c ++ (cs.flatMap escChar ++ '"' :: rest) := by
      simp [List.flatMap_cons]
    rw [hstep]
    by_cases h1 : c = '"'
    · subst h1
      simp [escChar, parseStrRest, parseStrEsc, simpleEsc, ih]
    by_cases h2 : c = '\\'
    · subst h2
      simp [escChar, parseStrRest, parseStrEsc, simpleEsc, ih]
    by_cases h3 : c = '\n'
    · subst h3
      simp [escChar, h1, parseStrRest, parseStrEsc, simpleEsc, ih]
    by_cases h4 : c = '\t'
    · subst h4
      simp [escChar, h1, h2, h3, parseStrRest, parseStrEsc, simpleEsc, ih]
    by_cases h5 : c = '\r'
    · subst h5
      simp [escChar, h1, h2, h3, h4, parseStrRest, parseStrEsc, simpleEsc, ih]
    by_cases h6 : c = Char.ofNat 8
    · subst h6
      simp [escChar, h1, h2, h3, h4, h5, parseStrRest, parseStrEsc, simpleEsc, ih]
    by_cases h7 : c = Char.ofNat 12
    · subst h7
      simp [escChar, h1, h2, h3, h4, h5, h6, parseStrRest, parseStrEsc, simpleEsc, ih]
    by_cases h8 : c.toNat < 32
    · have hesc : escChar c =
          ['\\', 'u', '0', '0', hexDigit (c.toNat / 16), hexDigit (c.toNat % 16)] := by
        simp [escChar, h1, h2, h3, h4, h5, h6, h7, h8]
      rw [hesc]
      have hhi := hexVal_hexDigit (c.toNat / 16) (by omega)
      have hlo := hexVal_hexDigit (c.toNat % 16) (by omega)
      have hh0 : hexVal '0' = some 0 := by decide
      have hx4 : parseHex4 ('0' :: '0' :: hexDigit (c.toNat / 16) ::
          hexDigit (c.toNat % 16) :: (cs.flatMap escChar ++ '"' :: rest)) =
          some (c.toNat, cs.flatMap escChar ++ '"' :: rest) := by
        have harith : c.toNat / 16 * 16 + c.toNat % 16 = c.toNat := by omega
        simp [parseHex4, hh0, hhi, hlo, harith]
      have hv : validCp c.toNat = true := by
        simp only [validCp, Bool.or_eq_true, decide_eq_true_eq]
        omega
      simp [parseStrRest, parseStrEsc, simpleEsc, hx4, hv, ofNat_toNat_char, ih]
    · have hesc : escChar c = [c] := by
        simp [escChar, h1, h2, h3, h4, h5, h6, h7, h8]
      rw [hesc]
      simp only [List.cons_append, List.nil_append, parseStrRest]
      rw [if_neg h1, if_neg h2, if_neg (by omega : ¬ c.toNat < 32), ih]
      rfl

theorem toNat_digitChar (d : Nat) (h : d < 10) : (digitChar d).toNat = 48 + d :=
  toNat_ofNat_valid _ (Or.inl (by omega))

theorem digitChar_isDigit (d : Nat) (h : d < 10) : isDigitChar (digitChar d) = true := by
  simp only [isDigitChar, toNat_digitChar d h, Bool.and_eq_true, decide_eq_true_eq]
  omega

theorem natToChars_digits (n : Nat) : ∀ c ∈ natToChars n, isDigitChar c = true := by
  intro c hc
  by_cases h0 : n = 0
  · subst h0
    simp [natToChars] at hc
    subst hc
    decide
  · simp only [natToChars, if_neg h0, List.mem_reverse, List.mem_map] at hc
    obtain ⟨d, hd, rfl⟩ := hc
    exact digitChar_isDigit d (Nat.digits_lt_base (by norm_num) hd)

theorem natToChars_ne_nil (n : Nat) : natToChars n ≠ [] := by
  by_cases h0 : n = 0
  · subst h0; simp [natToChars]
  · simp only [natToChars, if_neg h0, ne_eq, List.reverse_eq_nil_iff, List.map_eq_nil_iff]
    exact Nat.digits_ne_nil_iff_ne_zero.mpr h0

theorem charsToNat_natToChars (n : Nat) : charsToNat (natToChars n) = n := by
  by_cases h0 : n = 0
  · subst h0; decide
  · simp only [natToChars, if_neg h0, charsToNat, List.map_reverse, List.reverse_reverse,
      List.map_map]
    have hmap : (Nat.digits 10 n).map ((fun c => c.toNat - 48) ∘ digitChar) =
        Nat.digits 10 n := by
      rw [show Nat.digits 10 n = (Nat.digits 10 n).map id by simp]
      rw [List.map_map]
      apply List.map_congr_left
      intro d hd
      have hd10 : d < 10 := Nat.digits_lt_base (by norm_num) (by simpa using hd)
      simp [toNat_digitChar d hd10]
    rw [hmap, Nat.ofDigits_digits]

theorem natToChars_no_leading_zero (n : Nat) :
    ¬((natToChars n).head? = some '0' ∧ natToChars n ≠ ['0']) := by
  by_cases h0 : n = 0
  · subst h0; simp [natToChars]
  · rintro ⟨hhead, _⟩
    have hnil : Nat.digits 10 n ≠ [] := Nat.digits_ne_nil_iff_ne_zero.mpr h0
    rw [natToChars, if_neg h0, List.head?_reverse] at hhead
    have hlast? : (Nat.digits 10 n).getLast? =
        some ((Nat.digits 10 n).getLast hnil) := List.getLast?_eq_getLast _ hnil
    rw [List.getLast?_map, hlast?] at hhead
    have hdc : digitChar ((Nat.digits 10 n).getLast hnil) = '0' := by
      simpa using hhead
    have hd0 : (Nat.digits 10 n).getLast hnil ≠ 0 := Nat.getLast_digit_ne_zero 10 h0
    have hd10 : (Nat.digits 10 n).getLast hnil < 10 :=
      Nat.digits_lt_base (by norm_num) (List.getLast_mem hnil)
    have := congrArg Char.toNat hdc
    rw [toNat_digitChar _ hd10] at this
    simp only [show ('0').toNat = 48 from rfl] at this
    omega

theorem takeWhile_app_of_all (p : Char → Bool) (l r : List Char)
    (hl : ∀ c ∈ l, p c = true) (hr : (r.head?.map p).getD false = false) :
    (l ++ r).takeWhile p = l ∧ (l ++ r).dropWhile p = r := by
  induction l with
  | nil =>
    simp only [List.nil_append]
    cases r with
    | nil => simp
    | cons c t =>
      have hc : p c = false := by simpa using hr
      simp [List.takeWhile, List.dropWhile, hc]
  | cons c cs ih =>
    have hc : p c = true := hl c (List.mem_cons_self c cs)
    have hcs : ∀ d ∈ cs, p d = true := fun d hd => hl d (List.mem_cons_of_mem c hd)
    obtain ⟨h1, h2⟩ := ih hcs
    simp [List.takeWhile, List.dropWhile, hc, h1, h2]

theorem numStop_digit (r : List Char) (h : numStop r) :
    (r.head?.map isDigitChar).getD false = false := by
  cases r with
  | nil => rfl
  | cons c t =>
    have hn : numLikeChar c = false := by simpa [numStop] using h
    have hd : isDigitChar c = false := by
      cases hb : isDigitChar c
      · rfl
      · rw [numLikeChar, hb] at hn
        simp at hn
    simpa using hd

theorem parseNumCore_rt (m : Nat) (rest : List Char) (hr : numStop rest) :
    parseNumCore (natToChars m ++ rest) = some (m, rest) := by
  obtain ⟨htake, hdrop⟩ := takeWhile_app_of_all isDigitChar (natToChars m) rest
    (natToChars_digits m) (numStop_digit rest hr)
  simp only [parseNumCore, htake, hdrop]
  rw [if_neg (natToChars_ne_nil m), if_neg (natToChars_no_leading_zero m),
    if_neg (by simpa [numStop] using hr), charsToNat_natToChars]

theorem natToChars_head_not_minus (m : Nat) :
    ((natToChars m ++ rest).head? = some '-') = False := by
  obtain ⟨c, t, hct⟩ := List.exists_cons_of_ne_nil (natToChars_ne_nil m)
  have hc : isDigitChar c = true := by
    apply natToChars_digits m
    rw [hct]
    exact List.mem_cons_self c t
  rw [hct]
  simp only [List.cons_append, List.head?_cons, Option.some.injEq, eq_iff_iff,
    iff_false]
  intro hcm
  subst hcm
  simp [isDigitChar] at hc

theorem parseNum_rt (n : Int) (rest : List Char) (hr : numStop rest) :
    parseNum (intToChars n ++ rest) = some (n, rest) := by
  cases n with
  | ofNat m =>
    simp only [intToChars, parseNum, natToChars_head_not_minus m, if_false]
    rw [parseNumCore_rt m rest hr]
    rfl
  | negSucc m =>
    simp only [intToChars, parseNum, List.cons_append, List.head?_cons, if_pos rfl,
      List.tail_cons]
    rw [parseNumCore_rt (m + 1) rest hr]
    simp [Int.negSucc_eq]

theorem need_pos (v : Json) : 1 ≤ Json.need v := by
  cases v <;> simp [Json.need]

theorem needItems_pos (xs : List Json) : 1 ≤ Json.needItems xs := by
  cases xs with
  | nil => simp [Json.needItems]
  | cons x xs => simp only [Json.needItems]; omega

theorem needMembers_pos (ms : List (List Char × Json)) : 1 ≤ Json.needMembers ms := by
  cases ms with
  | nil => simp [Json.needMembers]
  | cons m ms => simp only [Json.needMembers]; omega

theorem char_ne_of_toNat_lt (c d : Char) (h : c.toNat < d.toNat) : c ≠ d := by
  intro he
  rw [he] at h
  omega

theorem char_ne_of_toNat_gt (c d : Char) (h : d.toNat < c.toNat) : c ≠ d := by
  intro he
  rw [he] at h
  omega

/-- Facts about a character in the toNat range of minus and the decimal
digits: it starts no other token and is not whitespace. -/
theorem numHead_facts (c : Char) (h45 : 45 ≤ c.toNat) (h57 : c.toNat ≤ 57) :
    isWsChar c = false ∧ c ≠ '{' ∧ c ≠ '[' ∧ c ≠ '"' ∧ c ≠ 'n' ∧ c ≠ 't' ∧
      c ≠ 'f' ∧ c ≠ ']' ∧ c ≠ '}' := by
  refine ⟨?_, ?_, ?_, ?_, ?_, ?_, ?_, ?_, ?_⟩
  · simp only [isWsChar, Bool.or_eq_false_iff, decide_eq_false_iff_not]
    refine ⟨⟨⟨?_, ?_⟩, ?_⟩, ?_⟩ <;>
      (intro he; subst he; revert h45 h57; decide)
  · exact char_ne_of_toNat_lt _ _ (by rw [show ('{').toNat = 123 from rfl]; omega)
  · exact char_ne_of_toNat_lt _ _ (by rw [show ('[').toNat = 91 from rfl]; omega)
  · exact char_ne_of_toNat_gt _ _ (by rw [show ('"').toNat = 34 from rfl]; omega)
  · exact char_ne_of_toNat_lt _ _ (by rw [show ('n').toNat = 110 from rfl]; omega)
  · exact char_ne_of_toNat_lt _ _ (by rw [show ('t').toNat = 116 from rfl]; omega)
  · exact char_ne_of_toNat_lt _ _ (by rw [show ('f').toNat = 102 from rfl]; omega)
  · exact char_ne_of_toNat_lt _ _ (by rw [show (']').toNat = 93 from rfl]; omega)
  · exact char_ne_of_toNat_lt _ _ (by rw [show ('}').toNat = 125 from rfl]; omega)

theorem intToChars_head (n : Int) :
    ∃ c t, intToChars n = c :: t ∧ 45 ≤ c.toNat ∧ c.toNat ≤ 57 := by
  cases n with
  | ofNat m =>
    obtain ⟨c, t, hct⟩ := List.exists_cons_of_ne_nil (natToChars_ne_nil m)
    refine ⟨c, t, hct, ?_, ?_⟩ <;>
    · have hc : isDigitChar c = true := by
        apply natToChars_digits m
        rw [hct]
        exact List.mem_cons_self c t
      simp only [isDigitChar, Bool.and_eq_true, decide_eq_true_eq] at hc
      omega
  | negSucc m => exact ⟨'-', natToChars (m + 1), rfl, by decide, by decide⟩

/-- Head character of every encoded value, with the token facts the
parser dispatch needs. -/
theorem encodeVal_head (ind : Nat) (v : Json) :
    ∃ c t, encodeVal ind v = c :: t ∧ isWsChar c = false ∧ c ≠ ']' ∧ c ≠ '}' := by
  cases v with
  | null =>
    refine ⟨'n', ['u', 'l', 'l'], ?_, by decide, by decide, by decide⟩
    rw [encodeVal]
  | bool b =>
    cases b with
    | false =>
      refine ⟨'f', ['a', 'l', 's', 'e'], ?_, by decide, by decide, by decide⟩
      rw [encodeVal]
    | true =>
      refine ⟨'t', ['r', 'u', 'e'], ?_, by decide, by decide, by decide⟩
      rw [encodeVal]
  | num n =>
    obtain ⟨c, t, hct, h45, h57⟩ := intToChars_head n
    obtain ⟨hws, _, _, _, _, _, _, h1, h2⟩ := numHead_facts c h45 h57
    refine ⟨c, t, ?_, hws, h1, h2⟩
    rw [encodeVal]
    exact hct
  | str s =>
    refine ⟨'"', s.flatMap escChar ++ ['"'], ?_, by decide, by decide, by decide⟩
    rw [encodeVal]
    rfl
  | arr xs =>
    cases xs with
    | nil =>
      refine ⟨'[', [']'], ?_, by decide, by decide, by decide⟩
      rw [encodeVal]
    | cons x xs =>
      refine ⟨'[', encodeArrItems ind x xs ++ nlIndent ind ++ [']'], ?_,
        by decide, by decide, by decide⟩
      rw [encodeVal]
  | obj ms =>
    cases ms with
    | nil =>
      refine ⟨'{', ['}'], ?_, by decide, by decide, by decide⟩
      rw [encodeVal]
    | cons m ms =>
      refine ⟨'{', encodeObjItems ind m ms ++ nlIndent ind ++ ['}'], ?_,
        by decide, by decide, by decide⟩
      rw [encodeVal]

/-- Continuation of the input after one array item. -/
def itemsTail (ind : Nat) (xs : List Json) (rest : List Char) : List Char :=
  match xs with
  | [] => nlIndent ind ++ ']' :: rest
  | y :: ys => ',' :: (encodeArrItems ind y ys ++ (nlIndent ind ++ ']' :: rest))

/-- Continuation of the input after one object member. -/
def membersTail (ind : Nat) (ms : List (List Char × Json)) (rest : List Char) :
    List Char :=
  match ms with
  | [] => nlIndent ind ++ '}' :: rest
  | y :: ys => ',' :: (encodeObjItems ind y ys ++ (nlIndent ind ++ '}' :: rest))

theorem itemsTail_numStop (ind : Nat) (xs : List Json) (rest : List Char) :
    numStop (itemsTail ind xs rest) := by
  cases xs <;> simp [itemsTail, numStop, nlIndent] <;> decide

theorem membersTail_numStop (ind : Nat) (ms : List (List Char × Json))
    (rest : List Char) : numStop (membersTail ind ms rest) := by
  cases ms <;> simp [membersTail, numStop, nlIndent] <;> decide

theorem eAI_split (ind : Nat) (x : Json) (xs : List Json) (rest : List Char) :
    encodeArrItems ind x xs ++ (nlIndent ind ++ ']' :: rest) =
      nlIndent (ind + 1) ++ (encodeVal (ind + 1) x ++ itemsTail ind xs rest) := by
  cases xs with
  | nil =>
    rw [encodeArrItems]
    simp [itemsTail, List.append_assoc]
  | cons y ys =>
    rw [encodeArrItems]
    simp [itemsTail, List.append_assoc]

theorem eOI_split (ind : Nat) (m : List Char × Json) (ms : List (List Char × Json))
    (rest : List Char) :
    encodeObjItems ind m ms ++ (nlIndent ind ++ '}' :: rest) =
      nlIndent (ind + 1) ++ (encStr m.1 ++ (':' :: ' ' ::
        (encodeVal (ind + 1) m.2 ++ membersTail ind ms rest))) := by
  cases ms with
  | nil =>
    rw [encodeObjItems]
    simp [membersTail, List.append_assoc]
  | cons y ys =>
    rw [encodeObjItems]
    simp [membersTail, List.append_assoc]

theorem skipWs_app' (ws s : List Char) (h : ws.all isWsChar = true) :
    skipWs (ws ++ s) = skipWs s :=
  skipWs_app ws s (by rw [List.all_eq_true] at h; exact h)

theorem nlIndent_all (ind : Nat) : (nlIndent ind).all isWsChar = true := by
  rw [List.all_eq_true]
  exact fun c hc => nlIndent_wsOnly ind c hc

theorem parseLit_exact (w : List Char) (v : Json) (rest : List Char) :
    parseLit w v (w ++ rest) = some (v, rest) := by
  simp [parseLit, List.take_left, List.drop_left]

-- Round-trip of the value grammar: parsing an encoded value, preceded by
-- optional whitespace and followed by a remainder that cannot extend a
-- number literal, returns the value and the remainder untouched.
mutual
theorem rt_val (v : Json) (ind fuel : Nat) (ws rest : List Char)
    (hws : ws.all isWsChar = true) (hf : Json.need v ≤ fuel) (hr : numStop rest) :
    parseVal fuel (ws ++ (encodeVal ind v ++ rest)) = some (v, rest) := by
  cases fuel with
  | zero =>
    have := need_pos v
    omega
  | succ f =>
    cases v with
    | null =>
      have henc : encodeVal ind Json.null = ['n', 'u', 'l', 'l'] := by rw [encodeVal]
      have hlit := parseLit_exact ['u', 'l', 'l'] Json.null rest
      rw [henc]
      simp only [parseVal, List.cons_append, List.nil_append]
      rw [skipWs_app' _ _ hws, skipWs_cons_not_ws _ _ (by decide)]
      simpa using hlit
    | bool b =>
      cases b with
      | true =>
        have henc : encodeVal ind (Json.bool true) = ['t', 'r', 'u', 'e'] := by
          rw [encodeVal]
        have hlit := parseLit_exact ['r', 'u', 'e'] (Json.bool true) rest
        rw [henc]
        simp only [parseVal, List.cons_append, List.nil_append]
        rw [skipWs_app' _ _ hws, skipWs_cons_not_ws _ _ (by decide)]
        simpa using hlit
      | false =>
        have henc : encodeVal ind (Json.bool false) = ['f', 'a', 'l', 's', 'e'] := by
          rw [encodeVal]
        have hlit := parseLit_exact ['a', 'l', 's', 'e'] (Json.bool false) rest
        rw [henc]
        simp only [parseVal, List.cons_append, List.nil_append]
        rw [skipWs_app' _ _ hws, skipWs_cons_not_ws _ _ (by decide)]
        simpa using hlit
    | num n =>
      obtain ⟨c, t, hct, h45, h57⟩ := intToChars_head n
      obtain ⟨hwsc, hbr1, hbr2, hbr3, hbr4, hbr5, hbr6, _, _⟩ :=
        numHead_facts c h45 h57
      have henc : encodeVal ind (Json.num n) = intToChars n := by rw [encodeVal]
      have hnum2 : parseNum (c :: (t ++ rest)) = some (n, rest) := by
        have hshape : c :: (t ++ rest) = intToChars n ++ rest := by
          rw [hct, List.cons_append]
        rw [hshape]
        exact parseNum_rt n rest hr
      rw [henc, hct]
      simp only [parseVal, List.cons_append]
      rw [skipWs_app' _ _ hws, skipWs_cons_not_ws _ _ hwsc]
      simp [hbr1, hbr2, hbr3, hbr4, hbr5, hbr6, hnum2]
    | str s =>
      have henc : encodeVal ind (Json.str s) =
          '"' :: (s.flatMap escChar ++ ['"']) := by rw [encodeVal]; rfl
      have hstr := parseStrRest_rt s rest
      rw [henc]
      simp only [parseVal, List.cons_append, List.append_assoc, List.nil_append]
      rw [skipWs_app' _ _ hws, skipWs_cons_not_ws _ _ (by decide)]
      simpa using hstr
    | arr xs =>
      cases xs with
      | nil =>
        have henc : encodeVal ind (Json.arr []) = ['[', ']'] := by rw [encodeVal]
        rw [henc]
        simp only [parseVal, List.cons_append, List.nil_append]
        rw [skipWs_app' _ _ hws, skipWs_cons_not_ws _ _ (by decide)]
        simp [skipWs_cons_not_ws _ _ (by decide : isWsChar ']' = false)]
      | cons x xs =>
        have henc : encodeVal ind (Json.arr (x :: xs)) =
            '[' :: (encodeArrItems ind x xs ++ nlIndent ind ++ [']']) := by
          rw [encodeVal]
        obtain ⟨c0, t0, hct0, hws0, hne0, _⟩ := encodeVal_head (ind + 1) x
        have hfe : Json.needItems (x :: xs) ≤ f := by
          have hne : Json.need (Json.arr (x :: xs)) =
              1 + Json.needItems (x :: xs) := by rw [Json.need]
          omega
        have hitems : parseItems f (c0 :: (t0 ++ itemsTail ind xs rest)) =
            some (x :: xs, rest) := by
          have := rt_items x xs ind f [] rest (by decide) hfe
          rw [List.nil_append, hct0] at this
          simpa using this
        rw [henc]
        simp only [parseVal, List.cons_append, List.append_assoc, List.nil_append]
        rw [skipWs_app' _ _ hws, skipWs_cons_not_ws _ _ (by decide)]
        have hskip : skipWs (c0 :: (t0 ++ itemsTail ind xs rest)) =
            c0 :: (t0 ++ itemsTail ind xs rest) := skipWs_cons_not_ws _ _ hws0
        simp [eAI_split, skipWs_app', nlIndent_all, hct0, hskip, hne0, hitems]
    | obj ms =>
      cases ms with
      | nil =>
        have henc : encodeVal ind (Json.obj []) = ['{', '}'] := by rw [encodeVal]
        rw [henc]
        simp only [parseVal, List.cons_append, List.nil_append]
        rw [skipWs_app' _ _ hws, skipWs_cons_not_ws _ _ (by decide)]
        simp [skipWs_cons_not_ws _ _ (by decide : isWsChar '}' = false)]
      | cons m ms =>
        have henc : encodeVal ind (Json.obj (m :: ms)) =
            '{' :: (encodeObjItems ind m ms ++ nlIndent ind ++ ['}']) := by
          rw [encodeVal]
        have hfe : Json.needMembers (m :: ms) ≤ f := by
          have hne : Json.need (Json.obj (m :: ms)) =
              1 + Json.needMembers (m :: ms) := by rw [Json.need]
          omega
        have hmem : parseMembers f ('"' :: (m.1.flatMap escChar ++ '"' ::
            (':' :: ' ' :: (encodeVal (ind + 1) m.2 ++ membersTail ind ms rest)))) =
            some (m :: ms, rest) := by
          have := rt_members m ms ind f [] rest (by decide) hfe
          rw [List.nil_append] at this
          simpa [encStr] using this
        rw [henc]
        simp only [parseVal, List.cons_append, List.append_assoc, List.nil_append]
        rw [skipWs_app' _ _ hws, skipWs_cons_not_ws _ _ (by decide)]
        have hskip : ∀ u : List Char, skipWs ('"' :: u) = '"' :: u :=
          fun u => skipWs_cons_not_ws _ _ (by decide)
        simp [eOI_split, skipWs_app', nlIndent_all, encStr, hskip, hmem]
termination_by fuel
decreasing_by
  all_goals omega
theorem rt_items (x : Json) (xs : List Json) (ind fuel : Nat) (ws rest : List Char)
    (hws : ws.all isWsChar = true) (hf : Json.needItems (x :: xs) ≤ fuel) :
    parseItems fuel (ws ++ (encodeVal (ind + 1) x ++ itemsTail ind xs rest)) =
      some (x :: xs, rest) := by
  cases fuel with
  | zero =>
    have := needItems_pos (x :: xs)
    omega
  | succ f =>
    have hneed : Json.needItems (x :: xs) = 1 + Json.need x + Json.needItems xs := by
      rw [Json.needItems]
    have hfx : Json.need x ≤ f := by omega
    have hval := rt_val x (ind + 1) f ws (itemsTail ind xs rest) hws hfx
      (itemsTail_numStop ind xs rest)
    simp only [parseItems, hval, Option.some_bind]
    cases xs with
    | nil =>
      simp only [itemsTail]
      rw [skipWs_app' _ _ (nlIndent_all ind),
        skipWs_cons_not_ws _ _ (by decide : isWsChar ']' = false)]
      simp
    | cons y ys =>
      have hfy : Json.needItems (y :: ys) ≤ f := by omega
      have hnext := rt_items y ys ind f (nlIndent (ind + 1)) rest
        (nlIndent_all (ind + 1)) hfy
      simp only [itemsTail]
      rw [skipWs_cons_not_ws _ _ (by decide : isWsChar ',' = false)]
      simp only [List.head?_cons, Option.some.injEq, List.tail_cons, if_true]
      rw [eAI_split]
      simp [hnext]
termination_by fuel
decreasing_by
  all_goals omega
theorem rt_members (m : List Char × Json) (ms : List (List Char × Json))
    (ind fuel : Nat) (ws rest : List Char)
    (hws : ws.all isWsChar = true) (hf : Json.needMembers (m :: ms) ≤ fuel) :
    parseMembers fuel (ws ++ (encStr m.1 ++ (':' :: ' ' ::
      (encodeVal (ind + 1) m.2 ++ membersTail ind ms rest)))) =
      some (m :: ms, rest) := by
  cases fuel with
  | zero =>
    have := needMembers_pos (m :: ms)
    omega
  | succ f =>
    have hneed : Json.needMembers (m :: ms) =
        1 + Json.need m.2 + Json.needMembers ms := by
      rw [Json.needMembers]
    have hfm : Json.need m.2 ≤ f := by omega
    have hval : parseVal f (' ' :: (encodeVal (ind + 1) m.2 ++
        membersTail ind ms rest)) = some (m.2, membersTail ind ms rest) := by
      have := rt_val m.2 (ind + 1) f [' '] (membersTail ind ms rest) (by decide)
        hfm (membersTail_numStop ind ms rest)
      simpa using this
    have hstr := parseStrRest_rt m.1
      (':' :: ' ' :: (encodeVal (ind + 1) m.2 ++ membersTail ind ms rest))
    simp only [parseMembers, encStr, List.cons_append, List.append_assoc]
    rw [skipWs_app' _ _ hws, skipWs_cons_not_ws _ _ (by decide)]
    simp only [List.nil_append, if_true]
    have hstr2 : parseStrRest (m.1.flatMap escChar ++ '"' ::
        (':' :: ' ' :: (encodeVal (ind + 1) m.2 ++ membersTail ind ms rest))) =
        some (m.1, ':' :: ' ' :: (encodeVal (ind + 1) m.2 ++
          membersTail ind ms rest)) := hstr
    rw [hstr2, Option.some_bind]
    rw [skipWs_cons_not_ws _ _ (by decide : isWsChar ':' = false)]
    simp only [List.head?_cons, List.tail_cons, Option.some.injEq, if_true]
    rw [hval, Option.some_bind]
    cases ms with
    | nil =>
      simp only [membersTail]
      rw [skipWs_app' _ _ (nlIndent_all ind),
        skipWs_cons_not_ws _ _ (by decide : isWsChar '}' = false)]
      simp
    | cons y ys =>
      have hfy : Json.needMembers (y :: ys) ≤ f := by omega
      have hnext := rt_members y ys ind f (nlIndent (ind + 1)) rest
        (nlIndent_all (ind + 1)) hfy
      simp only [membersTail]
      rw [skipWs_cons_not_ws _ _ (by decide : isWsChar ',' = false)]
      simp only [List.head?_cons, Option.some.injEq, List.tail_cons, if_true]
      rw [eOI_split]
      simp [hnext]
termination_by fuel
decreasing_by
  all_goals omega
end

-- Enough fuel: the encoding of a value is at least as long as the fuel
-- the parser needs for it.
mutual
theorem need_le_len (ind : Nat) (v : Json) :
    Json.need v ≤ (encodeVal ind v).length := by
  cases v with
  | null => rw [encodeVal]; simp [Json.need]
  | bool b =>
    cases b with
    | true => rw [encodeVal]; simp [Json.need]
    | false => rw [encodeVal]; simp [Json.need]
  | num n =>
    rw [encodeVal]
    obtain ⟨c, t, hct, _, _⟩ := intToChars_head n
    rw [hct]
    simp [Json.need]
  | str s =>
    rw [encodeVal]
    simp [Json.need, encStr]
  | arr xs =>
    cases xs with
    | nil => rw [encodeVal]; simp [Json.need, Json.needItems]
    | cons x xs =>
      rw [encodeVal]
      have h1 := needItems_le_len ind x xs
      have h2 : Json.need (Json.arr (x :: xs)) = 1 + Json.needItems (x :: xs) := by
        rw [Json.need]
      simp only [h2, List.length_cons, List.length_append]
      omega
  | obj ms =>
    cases ms with
    | nil => rw [encodeVal]; simp [Json.need, Json.needMembers]
    | cons m ms =>
      rw [encodeVal]
      have h1 := needMembers_le_len ind m ms
      have h2 : Json.need (Json.obj (m :: ms)) = 1 + Json.needMembers (m :: ms) := by
        rw [Json.need]
      simp only [h2, List.length_cons, List.length_append]
      omega
termination_by Json.need v
decreasing_by
  all_goals simp [Json.need, Json.needItems, Json.needMembers]
theorem needItems_le_len (ind : Nat) (x : Json) (xs : List Json) :
    Json.needItems (x :: xs) ≤ (encodeArrItems ind x xs).length := by
  have hx := need_le_len (ind + 1) x
  have heq : Json.needItems (x :: xs) = 1 + Json.need x + Json.needItems xs := by
    rw [Json.needItems]
  cases xs with
  | nil =>
    rw [encodeArrItems]
    simp only [heq, List.length_append, nlIndent, List.length_cons,
      List.length_replicate, Json.needItems]
    omega
  | cons y ys =>
    rw [encodeArrItems]
    have hy := needItems_le_len ind y ys
    simp only [heq, List.length_append, nlIndent, List.length_cons,
      List.length_replicate]
    omega
termination_by 1 + Json.need x + Json.needItems xs
decreasing_by
  all_goals simp [Json.need, Json.needItems, Json.needMembers]
  all_goals omega
theorem needMembers_le_len (ind : Nat) (m : List Char × Json)
    (ms : List (List Char × Json)) :
    Json.needMembers (m :: ms) ≤ (encodeObjItems ind m ms).length := by
  have hx := need_le_len (ind + 1) m.2
  have heq : Json.needMembers (m :: ms) =
      1 + Json.need m.2 + Json.needMembers ms := by
    rw [Json.needMembers]
  cases ms with
  | nil =>
    rw [encodeObjItems]
    simp only [heq, List.length_append, nlIndent, List.length_cons,
      List.length_replicate, Json.needMembers]
    omega
  | cons y ys =>
    rw [encodeObjItems]
    have hy := needMembers_le_len ind y ys
    simp only [heq, List.length_append, nlIndent, List.length_cons,
      List.length_replicate]
    omega
termination_by 1 + Json.need m.2 + Json.needMembers ms
decreasing_by
  all_goals simp [Json.need, Json.needItems, Json.needMembers]
  all_goals omega
end

/-- The central round-trip fact: parsing a dumped document returns the
document. -/
theorem loads_dumps (v : Json) : loads (dumps v) = some v := by
  have hlen : Json.need v ≤ (dumps v).length + 1 := by
    have := need_le_len 0 v
    simp only [dumps]
    omega
  have h := rt_val v 0 ((dumps v).length + 1) [] [] (by rfl) hlen (by rfl)
  simp only [List.nil_append, List.append_nil] at h
  simp only [loads, dumps] at h ⊢
  rw [h]
  rfl

/-! ### Python-side value helpers -/

/-- Python runtime exceptions distinguished by the model. -/
inductive PyErr : Type where
  | attributeError : PyErr
  | typeError : PyErr
  | keyError : PyErr
deriving Repr, DecidableEq

/-- Python truthiness of a json-shaped value. -/
def truthy : Json → Bool
  | .null => false
  | .bool b => b
  | .num n => decide (n ≠ 0)
  | .str s => !s.isEmpty
  | .arr xs => !xs.isEmpty
  | .obj ms => !ms.isEmpty

/-- dict lookup (dict.get with default None). -/
def objLookup : List (List Char × Json) → List Char → Option Json
  | [], _ => none
  | (k, v) :: ms, key => if k = key then some v else objLookup ms key

/-- the `in` test on a dict. -/
def hasKey (ms : List (List Char × Json)) (k : List Char) : Bool :=
  (objLookup ms k).isSome

/-- dict.setdefault: keep an existing key, append a missing one. -/
def setdefault (ms : List (List Char × Json)) (k : List Char) (d : Json) :
    List (List Char × Json) :=
  if hasKey ms k then ms else ms ++ [(k, d)]

/-- dict assignment d[k] = v: replace the binding in place (dict keys
are unique, so the first binding is the binding) or append it. -/
def objSet : List (List Char × Json) → List Char → Json →
    List (List Char × Json)
  | [], k, v => [(k, v)]
  | (k0, v0) :: rest, k, v =>
    if k0 = k then (k, v) :: rest else (k0, v0) :: objSet rest k v

/-- dict.pop(k, None): remove the binding of k when present.  Dict keys
are unique, so removing the first binding is removing the binding. -/
def objRemove (ms : List (List Char × Json)) (k : List Char) :
    List (List Char × Json) :=
  ms.eraseP (fun kv => kv.1 == k)

/-- Python == between a json-shaped value and a str. -/
def pyEqStr (v : Json) (s : List Char) : Bool :=
  match v with
  | .str t => t == s
  | _ => false

/-! ### The remote document store (GitHub contents API) and local file -/

/-- One remote operation, recorded newest first in the world log. -/
inductive StoreOp : Type where
  | getOp (path : List Char) : StoreOp
  | putOp (path : List Char) (sha : Option Nat) : StoreOp
deriving Repr, DecidableEq

/-- State of the outside world: remote files with revision tokens, the
local fallback file, a schedule of transport outcomes (empty means every
request goes through), the operation log and the number of warning or
error messages shown. -/
structure World : Type where
  gh : List (List Char × (List Char × Nat))
  nextRev : Nat
  localFile : Option (List Char)
  netOk : List Bool
  ops : List StoreOp
  msgs : Nat
deriving Repr, DecidableEq

def findFile : List (List Char × (List Char × Nat)) → List Char →
    Option (List Char × Nat)
  | [], _ => none
  | (q, f) :: fs, p => if q = p then some f else findFile fs p

def setFile : List (List Char × (List Char × Nat)) → List Char →
    (List Char × Nat) → List (List Char × (List Char × Nat))
  | [], p, f => [(p, f)]
  | (q, g) :: fs, p, f => if q = p then (p, f) :: fs else (q, g) :: setFile fs p f

def popNet (w : World) : Bool × World :=
  match w.netOk with
  | [] => (true, w)
  | b :: r => (b, { w with netOk := r })

def logOp (w : World) (op : StoreOp) : World := { w with ops := op :: w.ops }

def addMsg (w : World) : World := { w with msgs := w.msgs + 1 }

/-- gh_get_file: (text, sha) on success, (None, None) when the file is
missing, and (None, None) plus a warning on a transport failure. -/
def gh_get_file (w : World) (path : List Char) :
    (Option (List Char) × Option Nat) × World :=
  let (ok, w1) := popNet w
  let w2 := logOp w1 (.getOp path)
  if ok then
    match findFile w2.gh path with
    | some f => ((some f.1, some f.2), w2)
    | none => ((none, none), w2)
  else ((none, none), addMsg w2)

/-- gh_put_text: create a file when no sha is supplied and none exists,
update it when the supplied sha matches the stored revision token, and
fail otherwise (the compare-and-swap of the contents API). -/
def ghWrite (w : World) (path content : List Char) : World :=
  { w with gh := setFile w.gh path (content, w.nextRev), nextRev := w.nextRev + 1 }

def gh_put_text (w : World) (path content : List Char) (sha : Option Nat) :
    Bool × World :=
  let (ok, w1) := popNet w
  let w2 := logOp w1 (.putOp path sha)
  if !ok then (false, w2)
  else
    match findFile w2.gh path with
    | some f =>
      if sha = some f.2 then (true, ghWrite w2 path content)
      else (false, w2)
    | none =>
      if sha = none then (true, ghWrite w2 path content)
      else (false, w2)

/-! ### Storage document load and save -/

def GH_JSON_PATH : List Char := lc "data/storage.json"

def GH_BACKUP_DIR : List Char := lc "data/backups"

/-- Path of the daily snapshot for a yyyymmdd date string. -/
def backupPath (today : List Char) : List Char :=
  GH_BACKUP_DIR ++ lc "/storage-" ++ today ++ lc ".json"

def default_storage : Json :=
  .obj [(lc "users", .obj []), (lc "sessions", .arr []),
    (lc "__last_backup", .str [])]

/-- Shared tail of load_storage: json.loads with the `or default` guard
and the except arm, then the three setdefault calls.  The setdefault
calls run on whatever json.loads produced, so a truthy non-dict raises
AttributeError — tracked, not caught. -/
def parseCore (txt : List Char) : Except PyErr Json :=
  let data := match loads txt with
    | some v => if truthy v then v else default_storage
    | none => default_storage
  match data with
  | .obj ms =>
    .ok (.obj (setdefault (setdefault (setdefault ms (lc "users") (.obj []))
      (lc "sessions") (.arr [])) (lc "__last_backup") (.str [])))
  | _ => .error .attributeError

/-- Local-file arm of load_storage: write a default file when none
exists, then read and parse it. -/
def loadLocal (w : World) : World × Except PyErr (Json × Option Nat) :=
  match w.localFile with
  | none =>
    let d := dumps default_storage
    ({ w with localFile := some d }, (parseCore d).map (fun doc => (doc, none)))
  | some t => (w, (parseCore t).map (fun doc => (doc, none)))

/-- load_storage: prefer the remote file when GitHub is configured;
initialise it when missing; fall back to the local file on a failed
init write. -/
def load_storage (cfg : Bool) (w : World) :
    World × Except PyErr (Json × Option Nat) :=
  if cfg then
    let (tr, w1) := gh_get_file w GH_JSON_PATH
    match tr.1 with
    | none =>
      let (ok, w2) := gh_put_text w1 GH_JSON_PATH (dumps default_storage) none
      if ok then (w2, .ok (default_storage, none))
      else loadLocal (addMsg w2)
    | some txt => (w1, (parseCore txt).map (fun doc => (doc, tr.2)))
  else loadLocal w

/-- save_storage: one remote write with the held sha; on failure one
fresh read and one retry with the fresh sha; on a failed retry an error
message and the local fallback file. -/
def save_storage (cfg : Bool) (w : World) (storage : Json)
    (current_sha : Option Nat) : World × Option Nat :=
  let txt := dumps storage
  if cfg then
    let (ok, w1) := gh_put_text w GH_JSON_PATH txt current_sha
    if !ok then
      let (fr, w2) := gh_get_file w1 GH_JSON_PATH
      let (ok2, w3) := gh_put_text w2 GH_JSON_PATH txt fr.2
      if !ok2 then
        ({ (addMsg w3) with localFile := some txt }, current_sha)
      else (w3, fr.2)
    else
      let (fr, w2) := gh_get_file w1 GH_JSON_PATH
      (w2, fr.2)
  else
    ({ w with localFile := some txt }, current_sha)

/-! ### Daily backup -/

/-- The module-level mutable state: the outside world, the in-memory
storage document and the held revision token. -/
structure AppState : Type where
  world : World
  storage : Json
  sha : Option Nat

def persist (cfg : Bool) (st : AppState) : AppState :=
  let r := save_storage cfg st.world st.storage st.sha
  { world := r.1, storage := st.storage, sha := r.2 }

/-- Body of ensure_daily_backup, before its blanket try/except. -/
def edbE (cfg : Bool) (today : List Char) (st : AppState) :
    Except PyErr AppState :=
  if !cfg then .ok st
  else
    match st.storage with
    | .obj ms =>
      if (objLookup ms (lc "__last_backup")).any (fun v => pyEqStr v today) then
        .ok st
      else
        let path := backupPath today
        let payload := dumps st.storage
        let (er, w1) := gh_get_file st.world path
        let w2 := if er.1 = none then (gh_put_text w1 path payload none).2 else w1
        let storage2 := Json.obj (objSet ms (lc "__last_backup") (.str today))
        .ok (persist cfg { world := w2, storage := storage2, sha := st.sha })
    | _ => .error .attributeError

/-- ensure_daily_backup: the body above wrapped in try/except, turning
any exception into one warning message. -/
def ensure_daily_backup (cfg : Bool) (today : List Char) (st : AppState) :
    AppState :=
  match edbE cfg today st with
  | .ok st2 => st2
  | .error _ => { st with world := addMsg st.world }

/-! ### Authentication -/

/-- hash_pw delegates to the passlib pbkdf2_sha256.hash primitive, which
the model takes as a parameter. -/
def hash_pw (pbkdf2Hash : List Char → List Char) (password : List Char) :
    List Char :=
  pbkdf2Hash password

/-- verify_pw: the pbkdf2_sha256.verify primitive behind a try/except
that maps every exception to False. -/
def verify_pw (pbkdf2Verify : List Char → List Char → Except PyErr Bool)
    (password hashed : List Char) : Bool :=
  match pbkdf2Verify password hashed with
  | .ok b => b
  | .error _ => false

/-- The legacy-plaintext arm of authenticate: on a matching stored
plaintext, rewrite the record in place to the hashed form and drop the
plaintext field. -/
def legacyStep (hashFn : List Char → List Char)
    (sms us urec : List (List Char × Json)) (email password : List Char)
    (storage : Json) : Except PyErr (Bool × Json) :=
  if hasKey urec (lc "password") then
    if (objLookup urec (lc "password")).any (fun v => pyEqStr v password) then
      let urec2 := objRemove (objSet urec (lc "password_hash")
        (.str (hash_pw hashFn password))) (lc "password")
      .ok (true, .obj (objSet sms (lc "users")
        (.obj (objSet us email (.obj urec2)))))
    else .ok (false, storage)
  else .ok (false, storage)

/-- authenticate, including the in-place rewrite of a legacy plaintext
record on a successful match.  Returns the decision and the updated
storage document. -/
def authenticate (hashFn : List Char → List Char)
    (verifyFn : List Char → List Char → Except PyErr Bool)
    (storage : Json) (email password : List Char) : Except PyErr (Bool × Json) :=
  match storage with
  | .obj sms =>
    match (objLookup sms (lc "users")).getD (.obj []) with
    | .obj us =>
      match objLookup us email with
      | none => .ok (false, storage)
      | some u =>
        if !truthy u then .ok (false, storage)
        else
          match u with
          | .obj urec =>
            match objLookup urec (lc "password_hash") with
            | some (.str s) =>
              if !s.isEmpty then .ok (verify_pw verifyFn password s, storage)
              else legacyStep hashFn sms us urec email password storage
            | _ => legacyStep hashFn sms us urec email password storage
          | _ => .error .attributeError
    | _ => .error .attributeError
  | _ => .error .attributeError

/-! ### PDF text hardening -/

/-- The whitespace class of the regex backslash-s on ASCII text; the
additional Unicode space codepoints never meet the wrap threshold logic
differently and are elided. -/
def pyIsSpace (c : Char) : Bool :=
  c = ' ' || c = '\t' || c = '\n' || c = '\r' ||
    c = Char.ofNat 11 || c = Char.ofNat 12

/-- The chunks s[i:i+k] for i in range(0, len(s), k).  The zero-step
case cannot be reached from the app, which always passes 40. -/
def pyChunks (s : List Char) (k : Nat) : List (List Char) :=
  if k = 0 then [s]
  else if s.isEmpty then []
  else s.take k :: pyChunks (s.drop k) k
termination_by s.length
decreasing_by
  rename_i hk hs
  have h1 : s.length ≠ 0 := by simpa using hs
  have h2 : (s.drop k).length = s.length - k := List.length_drop ..
  omega

/-- The breaker function: chunks of the run joined by newlines. -/
def wrapRun (k : Nat) (s : List Char) : List Char :=
  List.intercalate ['\n'] (pyChunks s k)

/-- Scanner realising re.sub of one maximal non-whitespace run at a
time: a run of length at least max_len is replaced by its chunked form,
anything else is copied. -/
def hardWrapGo (k : Nat) : List Char → List Char
  | [] => []
  | c :: cs =>
    if pyIsSpace c then c :: hardWrapGo k cs
    else
      let run := c :: cs.takeWhile (fun d => !pyIsSpace d)
      let rest := cs.dropWhile (fun d => !pyIsSpace d)
      (if k ≤ run.length then wrapRun k run else run) ++ hardWrapGo k rest
termination_by s => s.length
decreasing_by
  all_goals simp
  all_goals have hsub : List.Sublist (List.dropWhile (fun d => !pyIsSpace d) cs) cs :=
    List.dropWhile_sublist _
  all_goals have := hsub.length_le
  all_goals omega

/-- hard_wrap_tokens: break every maximal non-whitespace run of at least
max_len characters into newline-separated chunks of max_len. -/
def hard_wrap_tokens (text : List Char) (max_len : Nat) : List Char :=
  if text.isEmpty then [] else hardWrapGo max_len text

/-- str.replace: scan left to right, replacing non-overlapping
occurrences.  The empty pattern never occurs in the app. -/
def replaceAll (pat rep : List Char) : List Char → List Char
  | [] => []
  | c :: cs =>
    if ¬pat.isEmpty ∧ pat.isPrefixOf (c :: cs) then
      rep ++ replaceAll pat rep ((c :: cs).drop pat.length)
    else c :: replaceAll pat rep cs
termination_by s => s.length
decreasing_by
  all_goals simp
  rename_i hpre
  have : ¬pat.isEmpty := hpre.1
  have hl : 1 ≤ pat.length := by
    cases pat
    · simp at this
    · simp
  omega

/-- sanitize_for_pdf: em-dash fix, emoji substitutions in insertion
order, then latin-1 encode with errors=replace and decode, which keeps
every character of codepoint at most 255 and turns the rest into
question marks. -/
def sanitize_for_pdf (text : List Char) : List Char :=
  if text.isEmpty then []
  else
    let t1 := replaceAll (lc "—") (lc "-") text
    let t2 := replaceAll (lc "⚽") (lc "[soccer]") t1
    let t3 := replaceAll (lc "✅") (lc "[ok]") t2
    let t4 := replaceAll (lc "⚠️") (lc "[warn]") t3
    let t5 := replaceAll (lc "🔥") (lc "[fire]") t4
    let t6 := replaceAll (lc "🎯") (lc "[target]") t5
    let t7 := replaceAll (lc "💡") (lc "[drill]") t6
    t7.map (fun c => if c.toNat ≤ 255 then c else '?')

def pdf_safe_block (text : List Char) : List Char :=
  hard_wrap_tokens (sanitize_for_pdf text) 40

/-! ### Account deletion handler -/

/-- Keep a session unless its user field is the given email; a non-dict
session raises on .get. -/
def filterSessions (user : List Char) : List Json → Except PyErr (List Json)
  | [] => .ok []
  | s :: ss =>
    match s with
    | .obj ms =>
      (filterSessions user ss).map (fun rest =>
        if (objLookup ms (lc "user")).any (fun v => pyEqStr v user) then rest
        else s :: rest)
    | _ => .error .attributeError

/-- The account-page delete handler: pop the user record, then rebuild
the session list without that user. -/
def delete_account (storage : Json) (user : List Char) : Except PyErr Json :=
  match storage with
  | .obj sms =>
    match objLookup sms (lc "users") with
    | some (.obj us) =>
      let us2 := objRemove us user
      match (objLookup sms (lc "sessions")).getD (.arr []) with
      | .arr ss =>
        (filterSessions user ss).map (fun ss2 =>
          Json.obj (objSet (objSet sms (lc "users") (.obj us2))
            (lc "sessions") (.arr ss2)))
      | _ => .error .typeError
    | some _ => .error .attributeError
    | none => .error .keyError
  | _ => .error .typeError

/-! ### World-model lemmas -/

theorem findFile_setFile_self (fs : List (List Char × (List Char × Nat)))
    (p : List Char) (f : List Char × Nat) : findFile (setFile fs p f) p = some f := by
  induction fs with
  | nil => simp [setFile, findFile]
  | cons g gs ih =>
    obtain ⟨q, g0⟩ := g
    by_cases h : q = p
    · subst h
      simp [setFile, findFile]
    · simp [setFile, findFile, h, ih]

theorem findFile_setFile_ne (fs : List (List Char × (List Char × Nat)))
    (p q : List Char) (f : List Char × Nat) (h : q ≠ p) :
    findFile (setFile fs p f) q = findFile fs q := by
  induction fs with
  | nil => simp [setFile, findFile, Ne.symm h]
  | cons g gs ih =>
    obtain ⟨q0, g0⟩ := g
    by_cases h0 : q0 = p
    · subst h0
      simp [setFile, findFile, h, Ne.symm h]
    · by_cases h1 : q0 = q
      · subst h1
        simp [setFile, findFile, h0]
      · simp [setFile, findFile, h0, h1, ih]

theorem popNet_nil (w : World) (h : w.netOk = []) : popNet w = (true, w) := by
  simp [popNet, h]

theorem popNet_sndOps (w : World) : (popNet w).2.ops = w.ops := by
  cases h : w.netOk <;> simp [popNet, h]

theorem gh_put_ops (w : World) (p c : List Char) (sha : Option Nat) :
    (gh_put_text w p c sha).2.ops = StoreOp.putOp p sha :: w.ops := by
  have ho := popNet_sndOps w
  simp only [gh_put_text]
  rcases hp : popNet w with ⟨ok, w1⟩
  rw [hp] at ho
  have ho2 : w1.ops = w.ops := ho
  simp only [hp, logOp]
  split
  · simp [ho2]
  · split
    · split
      · simp [ghWrite, ho2]
      · simp [ho2]
    · split
      · simp [ghWrite, ho2]
      · simp [ho2]

theorem gh_get_ops (w : World) (p : List Char) :
    (gh_get_file w p).2.ops = StoreOp.getOp p :: w.ops := by
  have ho := popNet_sndOps w
  simp only [gh_get_file]
  rcases hp : popNet w with ⟨ok, w1⟩
  rw [hp] at ho
  have ho2 : w1.ops = w.ops := ho
  simp only [hp, logOp]
  split
  · split
    · simp [ho2]
    · simp [ho2]
  · simp [addMsg, ho2]

/-- Number of remote writes to a path in an operation log. -/
def putCount (path : List Char) (ops : List StoreOp) : Nat :=
  ops.countP (fun op => match op with
    | .putOp p _ => decide (p = path)
    | _ => false)

theorem putCount_cons_put (path p : List Char) (sha : Option Nat)
    (ops : List StoreOp) :
    putCount path (StoreOp.putOp p sha :: ops) =
      putCount path ops + (if p = path then 1 else 0) := by
  by_cases h : p = path <;> simp [putCount, List.countP_cons, h]

theorem putCount_cons_get (path p : List Char) (ops : List StoreOp) :
    putCount path (StoreOp.getOp p :: ops) = putCount path ops := by
  simp [putCount, List.countP_cons]

/-! ### Wrap-threshold lemmas -/

theorem intercalate_nil_l (sep : List Char) :
    List.intercalate sep ([] : List (List Char)) = [] := rfl

theorem intercalate_single (sep x : List Char) : List.intercalate sep [x] = x := by
  simp [List.intercalate]

theorem intercalate_cons2 (sep x y : List Char) (t : List (List Char)) :
    List.intercalate sep (x :: y :: t) =
      x ++ sep ++ List.intercalate sep (y :: t) := by
  simp [List.intercalate, List.intersperse]

/-- Bounded-run scanner: true when, continuing a non-whitespace run of
cur characters, no maximal non-whitespace run of the input ever exceeds
k characters. -/
def runBound (k : Nat) : List Char → Nat → Bool
  | [], _ => true
  | c :: cs, cur =>
    if pyIsSpace c then runBound k cs 0
    else decide (cur + 1 ≤ k) && runBound k cs (cur + 1)

theorem pyChunks_nil_iff (s : List Char) (k : Nat) (hk : k ≠ 0) :
    pyChunks s k = [] ↔ s = [] := by
  rw [pyChunks]
  by_cases hs : s.isEmpty
  · simp [hk, hs, List.isEmpty_iff.mp hs]
  · simp [hk, hs]
    intro he
    rw [he] at hs
    simp at hs

theorem pyChunks_flatten (s : List Char) (k : Nat) (hk : k ≠ 0) :
    (pyChunks s k).flatten = s := by
  rw [pyChunks]
  by_cases hs : s.isEmpty
  · simp [hk, hs, List.isEmpty_iff.mp hs]
  · have hlen : s.length ≠ 0 := by simpa using hs
    have ih := pyChunks_flatten (s.drop k) k hk
    simp [hk, hs, ih]
termination_by s.length
decreasing_by
  have h2 : (s.drop k).length = s.length - k := List.length_drop ..
  omega

theorem pyChunks_le (s : List Char) (k : Nat) (hk : k ≠ 0) :
    ∀ c ∈ pyChunks s k, c.length ≤ k := by
  rw [pyChunks]
  by_cases hs : s.isEmpty
  · simp [hk, hs]
  · have hlen : s.length ≠ 0 := by simpa using hs
    have ih := pyChunks_le (s.drop k) k hk
    simp only [hk, hs, if_false, Bool.false_eq_true, List.mem_cons]
    intro c hc
    rcases hc with h | h
    · subst h
      simp [List.length_take_le k s]
    · exact ih c h
termination_by s.length
decreasing_by
  have h2 : (s.drop k).length = s.length - k := List.length_drop ..
  omega

theorem pyChunks_dropLast (s : List Char) (k : Nat) (hk : k ≠ 0) :
    ∀ c ∈ (pyChunks s k).dropLast, c.length = k := by
  rw [pyChunks]
  by_cases hs : s.isEmpty
  · simp [hk, hs]
  · have hlen : s.length ≠ 0 := by simpa using hs
    have ih := pyChunks_dropLast (s.drop k) k hk
    simp only [hk, hs, if_false, Bool.false_eq_true]
    by_cases hrest : pyChunks (s.drop k) k = []
    · simp [hrest]
    · intro c hc
      rw [List.dropLast_cons_of_ne_nil hrest] at hc
      rcases List.mem_cons.mp hc with h | h
      · subst h
        have hd : s.drop k ≠ [] := by
          intro he
          exact hrest (by rw [pyChunks, he]; simp [hk])
        have hdl : (s.drop k).length = s.length - k := List.length_drop ..
        have hkl : k ≤ s.length := by
          by_contra hlt
          have : (s.drop k).length = 0 := by omega
          exact hd (List.eq_nil_of_length_eq_zero this)
        rw [List.length_take]
        omega
      · exact ih c h
termination_by s.length
decreasing_by
  have h2 : (s.drop k).length = s.length - k := List.length_drop ..
  omega

theorem runBound_nonspace (k : Nat) (r : List Char)
    (hr : ∀ c ∈ r, pyIsSpace c = false) :
    ∀ cur, cur + r.length ≤ k → runBound k r cur = true := by
  induction r with
  | nil => intro cur _; rfl
  | cons c cs ih =>
    intro cur hcur
    have hc : pyIsSpace c = false := hr c (List.mem_cons_self c cs)
    have hcs : ∀ d ∈ cs, pyIsSpace d = false :=
      fun d hd => hr d (List.mem_cons_of_mem c hd)
    simp only [runBound, hc, Bool.false_eq_true, if_false, Bool.and_eq_true,
      decide_eq_true_eq]
    refine ⟨by simp at hcur ⊢; omega, ih hcs (cur + 1) (by simp at hcur ⊢; omega)⟩

theorem runBound_append (k : Nat) (A z : List Char)
    (hz0 : runBound k z 0 = true)
    (hhead : z = [] ∨ ∃ c t, z = c :: t ∧ pyIsSpace c = true) :
    ∀ cur, runBound k A cur = true → runBound k (A ++ z) cur = true := by
  induction A with
  | nil =>
    intro cur _
    rcases hhead with h | ⟨c, t, hct, hc⟩
    · subst h; rfl
    · subst hct
      simp only [List.nil_append, runBound, hc, if_true]
      simpa [runBound, hc] using hz0
  | cons a A2 ih =>
    intro cur hA
    by_cases ha : pyIsSpace a = true
    · simp only [runBound, ha, if_true, List.cons_append] at hA ⊢
      exact ih 0 hA
    · simp only [runBound, ha, Bool.false_eq_true, if_false, List.cons_append,
        Bool.and_eq_true] at hA ⊢
      exact ⟨hA.1, ih (cur + 1) hA.2⟩

theorem runBound_intercalate (k : Nat) (chunks : List (List Char))
    (h : ∀ ch ∈ chunks, (∀ c ∈ ch, pyIsSpace c = false) ∧ ch.length ≤ k) :
    runBound k (List.intercalate ['\n'] chunks) 0 = true := by
  induction chunks with
  | nil => rfl
  | cons x t ih =>
    cases t with
    | nil =>
      rw [intercalate_single]
      obtain ⟨hx, hxl⟩ := h x (List.mem_cons_self x [])
      exact runBound_nonspace k x hx 0 (by omega)
    | cons y t2 =>
      rw [intercalate_cons2, List.append_assoc]
      obtain ⟨hx, hxl⟩ := h x (List.mem_cons_self x (y :: t2))
      have hrest := ih (fun ch hch => h ch (List.mem_cons_of_mem x hch))
      apply runBound_append k x ('\n' :: List.intercalate ['\n'] (y :: t2))
      · simpa [runBound] using hrest
      · exact Or.inr ⟨'\n', _, rfl, by decide⟩
      · exact runBound_nonspace k x hx 0 (by omega)

theorem dropWhile_head_not (p : Char → Bool) (l : List Char) (c : Char)
    (t : List Char) (h : l.dropWhile p = c :: t) : p c = false := by
  induction l with
  | nil => simp [List.dropWhile] at h
  | cons a l2 ih =>
    rw [List.dropWhile_cons] at h
    by_cases ha : p a = true
    · rw [if_pos ha] at h
      exact ih h
    · rw [if_neg ha] at h
      cases h
      simpa using ha

theorem dropWhile_len_lt_cons (p : Char → Bool) (c : Char) (cs : List Char) :
    (List.dropWhile p cs).length < (c :: cs).length := by
  have hsub : List.Sublist (List.dropWhile p cs) cs := List.dropWhile_sublist p
  have := hsub.length_le
  simp
  omega

theorem hardWrapGo_runBound (k : Nat) (hk : k ≠ 0) (t : List Char) :
    runBound k (hardWrapGo k t) 0 = true := by
  cases t with
  | nil => simp [hardWrapGo, runBound]
  | cons c cs =>
    by_cases hc : pyIsSpace c = true
    · rw [hardWrapGo]
      simp only [hc, if_true, runBound]
      exact hardWrapGo_runBound k hk cs
    · rw [hardWrapGo]
      simp only [hc, Bool.false_eq_true, if_false]
      set run := c :: cs.takeWhile (fun d => !pyIsSpace d) with hrun
      set rest := cs.dropWhile (fun d => !pyIsSpace d) with hrest
      have hrunns : ∀ d ∈ run, pyIsSpace d = false := by
        intro d hd
        rcases List.mem_cons.mp hd with h | h
        · subst h; simpa using hc
        · have := List.mem_takeWhile_imp h
          simpa using this
      have hzhead : hardWrapGo k rest = [] ∨
          ∃ d t2, hardWrapGo k rest = d :: t2 ∧ pyIsSpace d = true := by
        cases hre : rest with
        | nil => exact Or.inl (by rw [hardWrapGo])
        | cons d t2 =>
          have hd : pyIsSpace d = true := by
            have := dropWhile_head_not (fun d => !pyIsSpace d) cs d t2 (hrest ▸ hre)
            simpa using this
          rw [hardWrapGo]
          simp only [hd, if_true]
          exact Or.inr ⟨d, _, rfl, hd⟩
      have hzrb : runBound k (hardWrapGo k rest) 0 = true := by
        apply hardWrapGo_runBound k hk
      have hW : runBound k (if k ≤ run.length then wrapRun k run else run) 0 = true := by
        by_cases hlen : k ≤ run.length
        · rw [if_pos hlen, wrapRun]
          apply runBound_intercalate
          intro ch hch
          constructor
          · intro d hd
            apply hrunns
            rw [← pyChunks_flatten run k hk]
            exact List.mem_flatten.mpr ⟨ch, hch, hd⟩
          · exact pyChunks_le run k hk ch hch
        · rw [if_neg hlen]
          exact runBound_nonspace k run hrunns 0 (by omega)
      exact runBound_append k _ _ hzrb hzhead 0 hW
termination_by t.length
decreasing_by
  · simp
  · exact dropWhile_len_lt_cons _ _ _

theorem mem_intercalate_nl (L : List (List Char)) (c : Char)
    (h : c ∈ List.intercalate ['\n'] L) : (∃ ch ∈ L, c ∈ ch) ∨ c = '\n' := by
  induction L with
  | nil => simp [intercalate_nil_l] at h
  | cons x t ih =>
    cases t with
    | nil =>
      rw [intercalate_single] at h
      exact Or.inl ⟨x, List.mem_cons_self x [], h⟩
    | cons y t2 =>
      rw [intercalate_cons2] at h
      simp only [List.append_assoc, List.mem_append, List.mem_singleton] at h
      rcases h with h | h | h
      · exact Or.inl ⟨x, List.mem_cons_self x (y :: t2), h⟩
      · exact Or.inr h
      · rcases ih h with ⟨ch, hch, hc⟩ | h2
        · exact Or.inl ⟨ch, List.mem_cons_of_mem x hch, hc⟩
        · exact Or.inr h2

theorem hardWrapGo_chars (k : Nat) (hk : k ≠ 0) (t : List Char) :
    ∀ x ∈ hardWrapGo k t, x ∈ t ∨ x = '\n' := by
  cases t with
  | nil => intro x hx; rw [hardWrapGo] at hx; simp at hx
  | cons c cs =>
    intro x hx
    by_cases hc : pyIsSpace c = true
    · rw [hardWrapGo] at hx
      simp only [hc, if_true, List.mem_cons] at hx
      rcases hx with h | h
      · exact Or.inl (h ▸ List.mem_cons_self c cs)
      · rcases hardWrapGo_chars k hk cs x h with h2 | h2
        · exact Or.inl (List.mem_cons_of_mem c h2)
        · exact Or.inr h2
    · rw [hardWrapGo] at hx
      simp only [hc, Bool.false_eq_true, if_false, List.mem_append] at hx
      have hrun : ∀ y, y ∈ c :: cs.takeWhile (fun d => !pyIsSpace d) →
          y ∈ c :: cs := by
        intro y hy
        rcases List.mem_cons.mp hy with h | h
        · exact h ▸ List.mem_cons_self c cs
        · exact List.mem_cons_of_mem c
            ((List.takeWhile_sublist _).subset h)
      rcases hx with h | h
      · by_cases hlen : k ≤ (c :: cs.takeWhile (fun d => !pyIsSpace d)).length
        · rw [if_pos hlen, wrapRun] at h
          rcases mem_intercalate_nl _ x h with ⟨ch, hch, hx2⟩ | h2
          · refine Or.inl (hrun x ?_)
            rw [← pyChunks_flatten (c :: cs.takeWhile (fun d => !pyIsSpace d)) k hk]
            exact List.mem_flatten.mpr ⟨ch, hch, hx2⟩
          · exact Or.inr h2
        · rw [if_neg hlen] at h
          exact Or.inl (hrun x h)
      · rcases hardWrapGo_chars k hk _ x h with h2 | h2
        · exact Or.inl (List.mem_cons_of_mem c ((List.dropWhile_sublist _).subset h2))
        · exact Or.inr h2
termination_by t.length
decreasing_by
  · simp
  · exact dropWhile_len_lt_cons _ _ _

theorem sanitize_latin1 (text : List Char) :
    ∀ c ∈ sanitize_for_pdf text, c.toNat ≤ 255 := by
  intro c hc
  rw [sanitize_for_pdf] at hc
  by_cases h : text.isEmpty
  · simp [h] at hc
  · rw [if_neg h] at hc
    simp only [List.mem_map] at hc
    obtain ⟨d, _, hd⟩ := hc
    by_cases h255 : d.toNat ≤ 255
    · rw [if_pos h255] at hd
      exact hd ▸ h255
    · rw [if_neg h255] at hd
      subst hd
      decide

/-- C4: hard_wrap_tokens is total on any input and enforces the wrap
threshold: no maximal non-whitespace run of the output exceeds 40
characters, and a non-whitespace run of at least 40 characters is
replaced by its newline-joined chunks, all of length exactly 40 except
possibly the last, losing no characters. -/
theorem hard_wrap_tokens_spec : ∀ text : List Char,
    runBound 40 (hard_wrap_tokens text 40) 0 = true ∧
    (∀ run : List Char, (∀ c ∈ run, pyIsSpace c = false) → 40 ≤ run.length →
      hard_wrap_tokens run 40 = List.intercalate ['\n'] (pyChunks run 40) ∧
      (∀ ch ∈ pyChunks run 40, ch.length ≤ 40) ∧
      (∀ ch ∈ (pyChunks run 40).dropLast, ch.length = 40) ∧
      (pyChunks run 40).flatten = run) := by
  intro text
  constructor
  · rw [hard_wrap_tokens]
    by_cases h : text.isEmpty
    · simp [h, runBound]
    · simp only [h, Bool.false_eq_true, if_false]
      exact hardWrapGo_runBound 40 (by omega) text
  · intro run hns hlen
    refine ⟨?_, pyChunks_le run 40 (by omega), pyChunks_dropLast run 40 (by omega),
      pyChunks_flatten run 40 (by omega)⟩
    cases run with
    | nil => simp at hlen
    | cons c cs =>
      have hc : pyIsSpace c = false := hns c (List.mem_cons_self c cs)
      have hcs : ∀ d ∈ cs, (fun d => !pyIsSpace d) d = true := by
        intro d hd
        simp [hns d (List.mem_cons_of_mem c hd)]
      rw [hard_wrap_tokens]
      simp only [List.isEmpty_cons, Bool.false_eq_true, if_false]
      rw [hardWrapGo]
      simp only [hc, Bool.false_eq_true, if_false]
      rw [List.takeWhile_eq_self_iff.mpr hcs, List.dropWhile_eq_nil_iff.mpr hcs]
      rw [if_pos hlen]
      rw [hardWrapGo]
      simp [wrapRun]

theorem hard_wrap_tokens_spec_witness :
    hard_wrap_tokens (List.replicate 41 'a') 40 =
      List.intercalate ['\n'] (pyChunks (List.replicate 41 'a') 40) ∧
    (∀ ch ∈ pyChunks (List.replicate 41 'a') 40, ch.length ≤ 40) ∧
    (∀ ch ∈ (pyChunks (List.replicate 41 'a') 40).dropLast, ch.length = 40) ∧
    (pyChunks (List.replicate 41 'a') 40).flatten = List.replicate 41 'a' :=
  (hard_wrap_tokens_spec (List.replicate 41 'a')).2 (List.replicate 41 'a')
    (by decide) (by decide)

/-- C7: pdf_safe_block returns text in which every character is Latin-1
encodable (characters above U+00FF have been substituted) and no maximal
non-whitespace run exceeds 40 characters. -/
theorem pdf_safe_block_spec : ∀ text : List Char,
    (∀ c ∈ pdf_safe_block text, c.toNat ≤ 255) ∧
    runBound 40 (pdf_safe_block text) 0 = true := by
  intro text
  constructor
  · intro c hc
    rw [pdf_safe_block, hard_wrap_tokens] at hc
    by_cases h : (sanitize_for_pdf text).isEmpty
    · rw [if_pos h] at hc
      simp at hc
    · rw [if_neg h] at hc
      rcases hardWrapGo_chars 40 (by omega) _ c hc with h2 | h2
      · exact sanitize_latin1 text c h2
      · subst h2
        decide
  · rw [pdf_safe_block, hard_wrap_tokens]
    by_cases h : (sanitize_for_pdf text).isEmpty
    · simp [h, runBound]
    · simp only [h, Bool.false_eq_true, if_false]
      exact hardWrapGo_runBound 40 (by omega) _

/-! ### Dict lemmas -/

theorem objLookup_objSet_self (ms : List (List Char × Json)) (k : List Char)
    (v : Json) : objLookup (objSet ms k v) k = some v := by
  induction ms with
  | nil => simp [objSet, objLookup]
  | cons m ms ih =>
    obtain ⟨k0, v0⟩ := m
    by_cases h0 : k0 = k
    · subst h0
      simp [objSet, objLookup]
    · simp [objSet, objLookup, h0, ih]

theorem objLookup_objSet_ne (ms : List (List Char × Json)) (k k2 : List Char)
    (v : Json) (h : k2 ≠ k) : objLookup (objSet ms k v) k2 = objLookup ms k2 := by
  induction ms with
  | nil => simp [objSet, objLookup, Ne.symm h]
  | cons m ms ih =>
    obtain ⟨k0, v0⟩ := m
    by_cases h0 : k0 = k
    · subst h0
      simp [objSet, objLookup, Ne.symm h]
    · by_cases h1 : k0 = k2
      · subst h1
        simp [objSet, objLookup, h0]
      · simp [objSet, objLookup, h0, h1, ih]

theorem objLookup_objRemove_ne (ms : List (List Char × Json)) (u k : List Char)
    (h : k ≠ u) : objLookup (objRemove ms u) k = objLookup ms k := by
  induction ms with
  | nil => simp [objRemove, objLookup]
  | cons m ms ih =>
    obtain ⟨k0, v0⟩ := m
    by_cases h0 : k0 = u
    · subst h0
      rw [objRemove, List.eraseP_cons_of_pos (by simp)]
      simp [objLookup, Ne.symm h]
    · rw [objRemove, List.eraseP_cons_of_neg (by simp [h0])]
      by_cases h1 : k0 = k
      · subst h1
        simp [objLookup]
      · simpa [objLookup, h1] using ih

theorem objLookup_none_of_not_mem (ms : List (List Char × Json)) (k : List Char)
    (h : k ∉ ms.map Prod.fst) : objLookup ms k = none := by
  induction ms with
  | nil => rfl
  | cons m ms ih =>
    obtain ⟨k0, v0⟩ := m
    simp only [List.map_cons, List.mem_cons] at h
    push_neg at h
    simp [objLookup, Ne.symm h.1, ih h.2]

theorem objLookup_objRemove_self (ms : List (List Char × Json)) (u : List Char)
    (h : (ms.map Prod.fst).Nodup) : objLookup (objRemove ms u) u = none := by
  induction ms with
  | nil => rfl
  | cons m ms ih =>
    obtain ⟨k0, v0⟩ := m
    simp only [List.map_cons, List.nodup_cons] at h
    by_cases h0 : k0 = u
    · subst h0
      rw [objRemove, List.eraseP_cons_of_pos (by simp)]
      exact objLookup_none_of_not_mem ms k0 h.1
    · rw [objRemove, List.eraseP_cons_of_neg (by simp [h0])]
      simpa [objLookup, h0] using ih h.2

theorem mem_keys_objSet (ms : List (List Char × Json)) (k x : List Char)
    (v : Json) (h : x ∈ (objSet ms k v).map Prod.fst) :
    x ∈ ms.map Prod.fst ∨ x = k := by
  induction ms with
  | nil =>
    right
    simp only [objSet, List.map_cons, List.map_nil, List.mem_singleton] at h
    exact h
  | cons m ms ih =>
    obtain ⟨k0, v0⟩ := m
    by_cases h0 : k0 = k
    · have he : objSet ((k0, v0) :: ms) k v = (k, v) :: ms := by
        simp only [objSet]
        rw [if_pos h0]
      rw [he] at h
      simp only [List.map_cons, List.mem_cons] at h ⊢
      rcases h with h | h
      · right
        exact h
      · left
        right
        exact h
    · have he : objSet ((k0, v0) :: ms) k v = (k0, v0) :: objSet ms k v := by
        simp only [objSet]
        rw [if_neg h0]
      rw [he] at h
      simp only [List.map_cons, List.mem_cons] at h ⊢
      rcases h with h | h
      · left
        left
        exact h
      · rcases ih h with h2 | h2
        · left
          right
          exact h2
        · right
          exact h2

theorem objSet_keys_nodup (ms : List (List Char × Json)) (k : List Char) (v : Json)
    (h : (ms.map Prod.fst).Nodup) : ((objSet ms k v).map Prod.fst).Nodup := by
  induction ms with
  | nil =>
    simp only [objSet, List.map_cons, List.map_nil]
    exact List.nodup_singleton k
  | cons m ms ih =>
    obtain ⟨k0, v0⟩ := m
    simp only [List.map_cons, List.nodup_cons] at h
    by_cases h0 : k0 = k
    · have he : objSet ((k0, v0) :: ms) k v = (k, v) :: ms := by
        simp only [objSet]
        rw [if_pos h0]
      rw [he]
      simp only [List.map_cons, List.nodup_cons]
      subst h0
      exact h
    · have he : objSet ((k0, v0) :: ms) k v = (k0, v0) :: objSet ms k v := by
        simp only [objSet]
        rw [if_neg h0]
      rw [he]
      simp only [List.map_cons, List.nodup_cons]
      refine ⟨?_, ih h.2⟩
      intro hmem
      rcases mem_keys_objSet ms k k0 v hmem with h2 | h2
      · exact h.1 h2
      · exact h0 h2

theorem setdefault_of_hasKey (ms : List (List Char × Json)) (k : List Char)
    (d : Json) (h : hasKey ms k = true) : setdefault ms k d = ms := by
  simp [setdefault, h]

theorem objLookup_some_ne_nil (ms : List (List Char × Json)) (k : List Char)
    (v : Json) (h : objLookup ms k = some v) : ms ≠ [] := by
  intro he
  subst he
  simp [objLookup] at h

theorem objLookup_append_some (ms ms2 : List (List Char × Json)) (k : List Char)
    (v : Json) (h : objLookup ms k = some v) :
    objLookup (ms ++ ms2) k = some v := by
  induction ms with
  | nil => simp [objLookup] at h
  | cons m ms ih =>
    obtain ⟨k0, v0⟩ := m
    by_cases h0 : k0 = k
    · subst h0
      simp [objLookup] at h ⊢
      exact h
    · simp [objLookup, h0] at h ⊢
      exact ih h

theorem objLookup_append_none (ms ms2 : List (List Char × Json)) (k : List Char)
    (h : objLookup ms k = none) :
    objLookup (ms ++ ms2) k = objLookup ms2 k := by
  induction ms with
  | nil => simp
  | cons m ms ih =>
    obtain ⟨k0, v0⟩ := m
    by_cases h0 : k0 = k
    · subst h0
      simp [objLookup] at h
    · simp [objLookup, h0] at h ⊢
      exact ih h

theorem objLookup_setdefault_some (ms : List (List Char × Json))
    (k k2 : List Char) (d v : Json) (h : objLookup ms k2 = some v) :
    objLookup (setdefault ms k d) k2 = some v := by
  rw [setdefault]
  split
  · exact h
  · exact objLookup_append_some ms [(k, d)] k2 v h

theorem hasKey_setdefault_self (ms : List (List Char × Json)) (k : List Char)
    (d : Json) : hasKey (setdefault ms k d) k = true := by
  rw [setdefault]
  split
  · assumption
  · rename_i h
    have h2 : objLookup ms k = none := by
      cases ho : objLookup ms k
      · rfl
      · exact absurd (by simp [hasKey, ho]) h
    simp [hasKey, objLookup_append_none ms [(k, d)] k h2, objLookup]

theorem hasKey_setdefault_mono (ms : List (List Char × Json)) (k k2 : List Char)
    (d : Json) (h : hasKey ms k2 = true) :
    hasKey (setdefault ms k d) k2 = true := by
  rcases ho : objLookup ms k2 with _ | v
  · simp [hasKey, ho] at h
  · simp [hasKey, objLookup_setdefault_some ms k k2 d v ho]

/-! ### Authentication: totality and the legacy/malformed arms -/

/-- The guard `isinstance(ph, str) and ph` of authenticate. -/
def hasValidHash (urec : List (List Char × Json)) : Bool :=
  match objLookup urec (lc "password_hash") with
  | some (.str s) => !s.isEmpty
  | _ => false

/-- A verifier that rejects every input by raising. -/
def vfErr : List Char → List Char → Except PyErr Bool :=
  fun _ _ => .error .typeError

/-- A storage document whose user entry is a truthy non-dict value. -/
def oddUserStorage : Json :=
  .obj [(lc "users", .obj [(lc "e", .str (lc "x"))]),
    (lc "sessions", .arr []), (lc "__last_backup", .str [])]

/-- C10 counterexample: on a truthy non-dict user record, authenticate
raises AttributeError — the try/except inside verify_pw does not cover
the record accesses, so authenticate is not total over arbitrary stored
records. -/
theorem verify_pw_total_cex :
    authenticate (fun p => p) (fun _ _ => Except.ok true) oddUserStorage
      (lc "e") (lc "p") = .error .attributeError := by
  rfl

/-- C10 (amended): verify_pw always returns a boolean — the verifier's
verdict on success and False on any exception — and authenticate with an
arbitrary stored password_hash string (malformed or not) never raises,
returning exactly that verdict.  Totality over arbitrary stored records
fails only for truthy non-dict records. -/
theorem verify_pw_total_spec
    (verifyFn : List Char → List Char → Except PyErr Bool)
    (hashFn : List Char → List Char) (sms us urec : List (List Char × Json))
    (email password s : List Char)
    (hus : (objLookup sms (lc "users")).getD (.obj []) = .obj us)
    (hue : objLookup us email = some (.obj urec))
    (hph : objLookup urec (lc "password_hash") = some (.str s))
    (hs : s.isEmpty = false) :
    authenticate hashFn verifyFn (.obj sms) email password =
      .ok (verify_pw verifyFn password s, .obj sms) ∧
    (∀ e, verifyFn password s = .error e → verify_pw verifyFn password s = false) ∧
    (∀ b, verifyFn password s = .ok b → verify_pw verifyFn password s = b) := by
  refine ⟨?_, ?_, ?_⟩
  · have hne : urec ≠ [] :=
      objLookup_some_ne_nil urec (lc "password_hash") (.str s) hph
    have hE : urec.isEmpty = false := by
      cases urec
      · simp at hne
      · rfl
    simp only [authenticate, hus, hue]
    simp [truthy, hE, hph, hs]
  · intro e he
    simp [verify_pw, he]
  · intro b hb
    simp [verify_pw, hb]

/-- The members of a well-formed single-user document holding only a
hashed credential. -/
def hashedRec : List (List Char × Json) := [(lc "password_hash", .str (lc "h1"))]

def hashedUs : List (List Char × Json) := [(lc "e", .obj hashedRec)]

def hashedSms : List (List Char × Json) :=
  [(lc "users", .obj hashedUs), (lc "sessions", .arr [])]

theorem verify_pw_total_spec_witness :
    (authenticate (fun p => p) vfErr (.obj hashedSms) (lc "e") (lc "p") =
      .ok (verify_pw vfErr (lc "p") (lc "h1"), .obj hashedSms) ∧
    (∀ e, vfErr (lc "p") (lc "h1") = .error e →
      verify_pw vfErr (lc "p") (lc "h1") = false) ∧
    (∀ b, vfErr (lc "p") (lc "h1") = .ok b →
      verify_pw vfErr (lc "p") (lc "h1") = b)) :=
  verify_pw_total_spec vfErr (fun p => p) hashedSms hashedUs hashedRec
    (lc "e") (lc "p") (lc "h1") rfl rfl rfl rfl

/-- A storage document with a malformed user record: a dict holding
neither a password hash nor a legacy plaintext password. -/
def malformedStorage : Json :=
  .obj [(lc "users", .obj [(lc "e", .obj [(lc "membership", .str (lc "Free"))])]),
    (lc "sessions", .arr []), (lc "__last_backup", .str [])]

/-- C1 counterexample: authentication against a malformed user record is
rejected and the document left unchanged — the record is not accepted
and not normalised to the hashed form. -/
theorem authenticate_malformed_cex :
    authenticate (fun p => p) (fun _ _ => Except.ok true) malformedStorage
      (lc "e") (lc "pw") = .ok (false, malformedStorage) := by
  rfl

/-- C1 (amended): only the legacy-plaintext arm accepts and re-hashes.
When the record holds no valid hash but a legacy password equal to the
supplied one, authenticate succeeds and rewrites the record to the
hashed form, dropping the plaintext field; a malformed record without a
matching plaintext is rejected. -/
theorem authenticate_legacy_spec (hashFn : List Char → List Char)
    (verifyFn : List Char → List Char → Except PyErr Bool)
    (sms us urec : List (List Char × Json)) (email password : List Char)
    (hus : (objLookup sms (lc "users")).getD (.obj []) = .obj us)
    (hue : objLookup us email = some (.obj urec))
    (hph : hasValidHash urec = false)
    (hpw : objLookup urec (lc "password") = some (.str password)) :
    authenticate hashFn verifyFn (.obj sms) email password =
      .ok (true, .obj (objSet sms (lc "users") (.obj (objSet us email
        (.obj (objRemove (objSet urec (lc "password_hash")
          (.str (hashFn password))) (lc "password"))))))) := by
  have hne : urec ≠ [] :=
    objLookup_some_ne_nil urec (lc "password") (.str password) hpw
  have hE : urec.isEmpty = false := by
    cases urec
    · simp at hne
    · rfl
  have hstep : legacyStep hashFn sms us urec email password (.obj sms) =
      .ok (true, .obj (objSet sms (lc "users") (.obj (objSet us email
        (.obj (objRemove (objSet urec (lc "password_hash")
          (.str (hashFn password))) (lc "password"))))))) := by
    simp [legacyStep, hasKey, hpw, pyEqStr, hash_pw]
  rcases hl : objLookup urec (lc "password_hash") with _ | v
  · simp only [authenticate, hus, hue]
    simp [truthy, hE, hl, hstep]
  · cases v with
    | str s =>
      have hsE : s.isEmpty = true := by
        simpa [hasValidHash, hl] using hph
      simp only [authenticate, hus, hue]
      simp [truthy, hE, hl, hsE, hstep]
    | null =>
      simp only [authenticate, hus, hue]
      simp [truthy, hE, hl, hstep]
    | bool b =>
      simp only [authenticate, hus, hue]
      simp [truthy, hE, hl, hstep]
    | num n =>
      simp only [authenticate, hus, hue]
      simp [truthy, hE, hl, hstep]
    | arr xs =>
      simp only [authenticate, hus, hue]
      simp [truthy, hE, hl, hstep]
    | obj ms2 =>
      simp only [authenticate, hus, hue]
      simp [truthy, hE, hl, hstep]

/-- The members of a single-user document holding only the legacy
plaintext credential. -/
def legacyRec : List (List Char × Json) := [(lc "password", .str (lc "pw"))]

def legacyUs : List (List Char × Json) := [(lc "e", .obj legacyRec)]

def legacySms : List (List Char × Json) :=
  [(lc "users", .obj legacyUs), (lc "sessions", .arr [])]

theorem authenticate_legacy_spec_witness :
    authenticate (fun p => p) vfErr (.obj legacySms) (lc "e") (lc "pw") =
      .ok (true, .obj (objSet legacySms (lc "users") (.obj (objSet legacyUs
        (lc "e") (.obj (objRemove (objSet legacyRec (lc "password_hash")
          (.str ((fun p => p) (lc "pw")))) (lc "password"))))))) :=
  authenticate_legacy_spec (fun p => p) vfErr legacySms legacyUs legacyRec
    (lc "e") (lc "pw") rfl rfl rfl rfl

/-! ### Account deletion: frame condition -/

/-- `s.get("user") == USER`: whether a session record belongs to the
given user. -/
def sessionOwned (user : List Char) (s : Json) : Bool :=
  match s with
  | .obj ms => (objLookup ms (lc "user")).any (fun v => pyEqStr v user)
  | _ => false

/-- On a list of dict-shaped sessions, the rebuild comprehension is the
filter dropping exactly the given user's sessions. -/
theorem filterSessions_ok (user : List Char) (ss : List Json)
    (h : ∀ s ∈ ss, ∃ ms, s = Json.obj ms) :
    filterSessions user ss = .ok (ss.filter (fun s => !sessionOwned user s)) := by
  induction ss with
  | nil => rfl
  | cons s ss ih =>
    rcases h s (List.mem_cons_self ..) with ⟨ms, hm⟩
    subst hm
    have ih2 := ih (fun t ht => h t (List.mem_cons_of_mem _ ht))
    have he : filterSessions user (Json.obj ms :: ss) =
        (filterSessions user ss).map (fun rest =>
          if (objLookup ms (lc "user")).any (fun v => pyEqStr v user) then rest
          else Json.obj ms :: rest) := rfl
    rw [he, ih2]
    simp only [Except.map]
    by_cases hown : (objLookup ms (lc "user")).any (fun v => pyEqStr v user) = true
    · rw [if_pos hown, List.filter_cons]
      have hc : (!sessionOwned user (Json.obj ms)) = false := by
        simp [sessionOwned, hown]
      simp [hc]
    · have hc2 : (objLookup ms (lc "user")).any (fun v => pyEqStr v user) = false := by
        simpa using hown
      rw [if_neg hown, List.filter_cons]
      have hc : (!sessionOwned user (Json.obj ms)) = true := by
        simp [sessionOwned, hc2]
      simp [hc]

/-- C9: the delete handler removes exactly the given user's record from
the users mapping and exactly that user's sessions from the session
list; every other user's record is unchanged, other top-level fields are
unchanged, and the surviving sessions keep their relative order (they
are a filter of the original list). -/
theorem delete_account_frame (sms us : List (List Char × Json)) (ss : List Json)
    (user : List Char)
    (hus : objLookup sms (lc "users") = some (.obj us))
    (hss : objLookup sms (lc "sessions") = some (.arr ss))
    (hnd : (us.map Prod.fst).Nodup)
    (hobj : ∀ s ∈ ss, ∃ ms, s = Json.obj ms) :
    delete_account (.obj sms) user =
      .ok (.obj (objSet (objSet sms (lc "users") (.obj (objRemove us user)))
        (lc "sessions") (.arr (ss.filter (fun s => !sessionOwned user s))))) ∧
    objLookup (objRemove us user) user = none ∧
    (∀ k, k ≠ user → objLookup (objRemove us user) k = objLookup us k) ∧
    (∀ k, k ≠ lc "users" → k ≠ lc "sessions" →
      objLookup (objSet (objSet sms (lc "users") (.obj (objRemove us user)))
        (lc "sessions") (.arr (ss.filter (fun s => !sessionOwned user s)))) k =
        objLookup sms k) := by
  refine ⟨?_, objLookup_objRemove_self us user hnd,
    fun k hk => objLookup_objRemove_ne us user k hk, fun k h1 h2 => ?_⟩
  · simp only [delete_account, hus, hss, Option.getD]
    rw [filterSessions_ok user ss hobj]
    rfl
  · rw [objLookup_objSet_ne _ _ _ _ h2, objLookup_objSet_ne _ _ _ _ h1]

def usW : List (List Char × Json) :=
  [(lc "a", .obj [(lc "membership", .str (lc "Free"))]),
   (lc "b", .obj [(lc "membership", .str (lc "Pro"))])]

def ssW : List Json :=
  [.obj [(lc "user", .str (lc "a")), (lc "id", .num 1)],
   .obj [(lc "user", .str (lc "b")), (lc "id", .num 2)]]

def smsW : List (List Char × Json) :=
  [(lc "users", .obj usW), (lc "sessions", .arr ssW),
   (lc "__last_backup", .str [])]

theorem delete_account_frame_witness :
    (delete_account (.obj smsW) (lc "a") =
      .ok (.obj (objSet (objSet smsW (lc "users")
          (.obj (objRemove usW (lc "a"))))
        (lc "sessions")
        (.arr (ssW.filter (fun s => !sessionOwned (lc "a") s))))) ∧
    objLookup (objRemove usW (lc "a")) (lc "a") = none ∧
    (∀ k, k ≠ lc "a" →
      objLookup (objRemove usW (lc "a")) k = objLookup usW k) ∧
    (∀ k, k ≠ lc "users" → k ≠ lc "sessions" →
      objLookup (objSet (objSet smsW (lc "users")
          (.obj (objRemove usW (lc "a"))))
        (lc "sessions")
        (.arr (ssW.filter (fun s => !sessionOwned (lc "a") s)))) k =
        objLookup smsW k)) :=
  delete_account_frame smsW usW ssW (lc "a") rfl rfl (by decide)
    (by
      intro s hs
      rcases List.mem_cons.mp hs with h | h
      · exact ⟨_, h⟩
      · rcases List.mem_cons.mp h with h2 | h2
        · exact ⟨_, h2⟩
        · simp at h2)

/-! ### Save: compare-and-swap with a single retry -/

/-- C5: when the held revision token is stale, the save's first remote
write fails on the token mismatch and save_storage performs exactly one
fresh read followed by exactly one retry write carrying the freshly read
token (the operation log, newest first, is retry-put, read, first-put);
the whole save issues exactly two writes. -/
theorem save_storage_single_retry (w : World) (storage : Json)
    (current_sha : Option Nat) (c0 : List Char) (r : Nat)
    (hnet : w.netOk = [])
    (hfile : findFile w.gh GH_JSON_PATH = some (c0, r))
    (hstale : current_sha ≠ some r) :
    (save_storage true w storage current_sha).1.ops =
      .putOp GH_JSON_PATH (some r) :: .getOp GH_JSON_PATH ::
        .putOp GH_JSON_PATH current_sha :: w.ops ∧
    (save_storage true w storage current_sha).2 = some r ∧
    putCount GH_JSON_PATH (save_storage true w storage current_sha).1.ops =
      putCount GH_JSON_PATH w.ops + 2 := by
  have e1 : gh_put_text w GH_JSON_PATH (dumps storage) current_sha =
      (false, logOp w (.putOp GH_JSON_PATH current_sha)) := by
    simp [gh_put_text, popNet, hnet, logOp, hfile, hstale]
  have e2 : gh_get_file (logOp w (.putOp GH_JSON_PATH current_sha)) GH_JSON_PATH =
      ((some c0, some r), logOp (logOp w (.putOp GH_JSON_PATH current_sha))
        (.getOp GH_JSON_PATH)) := by
    simp [gh_get_file, popNet, hnet, logOp, hfile]
  have e3 : gh_put_text (logOp (logOp w (.putOp GH_JSON_PATH current_sha))
        (.getOp GH_JSON_PATH)) GH_JSON_PATH (dumps storage) (some r) =
      (true, ghWrite (logOp (logOp (logOp w (.putOp GH_JSON_PATH current_sha))
        (.getOp GH_JSON_PATH)) (.putOp GH_JSON_PATH (some r))) GH_JSON_PATH
        (dumps storage)) := by
    simp [gh_put_text, popNet, hnet, logOp, hfile, ghWrite]
  have hmain : save_storage true w storage current_sha =
      (ghWrite (logOp (logOp (logOp w (.putOp GH_JSON_PATH current_sha))
        (.getOp GH_JSON_PATH)) (.putOp GH_JSON_PATH (some r))) GH_JSON_PATH
        (dumps storage), some r) := by
    simp only [save_storage, e1, e2, e3]
    rfl
  have hops : (save_storage true w storage current_sha).1.ops =
      .putOp GH_JSON_PATH (some r) :: .getOp GH_JSON_PATH ::
        .putOp GH_JSON_PATH current_sha :: w.ops := by
    rw [hmain]
    rfl
  refine ⟨hops, by rw [hmain], ?_⟩
  rw [hops, putCount_cons_put, putCount_cons_get, putCount_cons_put]
  simp

def staleWorld : World :=
  { gh := [(GH_JSON_PATH, (lc "x", 5))], nextRev := 6, localFile := none,
    netOk := [], ops := [], msgs := 0 }

theorem save_storage_single_retry_witness :
    ((save_storage true staleWorld default_storage (some 3)).1.ops =
      .putOp GH_JSON_PATH (some 5) :: .getOp GH_JSON_PATH ::
        .putOp GH_JSON_PATH (some 3) :: staleWorld.ops ∧
    (save_storage true staleWorld default_storage (some 3)).2 = some 5 ∧
    putCount GH_JSON_PATH (save_storage true staleWorld default_storage
      (some 3)).1.ops = putCount GH_JSON_PATH staleWorld.ops + 2) :=
  save_storage_single_retry staleWorld default_storage (some 3) (lc "x") 5
    rfl rfl (by decide)

/-! ### Daily backup: idempotence -/

def opPath : StoreOp → List Char
  | .getOp p => p
  | .putOp p _ => p

theorem putCount_append (path : List Char) (l1 l2 : List StoreOp) :
    putCount path (l1 ++ l2) = putCount path l1 + putCount path l2 := by
  simp [putCount, List.countP_append]

theorem putCount_eq_zero_of_paths (path : List Char) (l : List StoreOp)
    (h : ∀ op ∈ l, opPath op ≠ path) : putCount path l = 0 := by
  induction l with
  | nil => rfl
  | cons op ops ih =>
    have h1 := h op (List.mem_cons_self ..)
    have ih2 := ih (fun o ho => h o (List.mem_cons_of_mem _ ho))
    cases op with
    | getOp p =>
      rw [putCount_cons_get, ih2]
    | putOp p s =>
      have h1p : p ≠ path := h1
      rw [putCount_cons_put, ih2, if_neg h1p]

/-- save_storage only ever touches the main document path: whatever the
branch, the new head of the operation log holds GH_JSON_PATH. -/
theorem save_storage_ops_paths (cfg : Bool) (w : World) (storage : Json)
    (sha : Option Nat) :
    ∃ l, (save_storage cfg w storage sha).1.ops = l ++ w.ops ∧
      ∀ op ∈ l, opPath op = GH_JSON_PATH := by
  cases cfg with
  | false => exact ⟨[], by simp [save_storage], by simp⟩
  | true =>
    simp only [save_storage]
    rcases h1 : gh_put_text w GH_JSON_PATH (dumps storage) sha with ⟨ok, w1⟩
    have ho1 : w1.ops = .putOp GH_JSON_PATH sha :: w.ops := by
      have hh := gh_put_ops w GH_JSON_PATH (dumps storage) sha
      rw [h1] at hh
      exact hh
    cases ok with
    | true =>
      rcases h2 : gh_get_file w1 GH_JSON_PATH with ⟨fr, w2⟩
      have ho2 : w2.ops = .getOp GH_JSON_PATH :: w1.ops := by
        have hh := gh_get_ops w1 GH_JSON_PATH
        rw [h2] at hh
        exact hh
      refine ⟨[.getOp GH_JSON_PATH, .putOp GH_JSON_PATH sha], ?_, ?_⟩
      · simp only [h1, h2, Bool.not_true, if_true, if_false, ite_false]
        simp [ho2, ho1]
      · intro op hop
        rcases List.mem_cons.mp hop with hh | hop2
        · rw [hh]
          rfl
        · rcases List.mem_cons.mp hop2 with hh | hop3
          · rw [hh]
            rfl
          · simp at hop3
    | false =>
      rcases h2 : gh_get_file w1 GH_JSON_PATH with ⟨fr, w2⟩
      have ho2 : w2.ops = .getOp GH_JSON_PATH :: w1.ops := by
        have hh := gh_get_ops w1 GH_JSON_PATH
        rw [h2] at hh
        exact hh
      rcases h3 : gh_put_text w2 GH_JSON_PATH (dumps storage) fr.2 with ⟨ok2, w3⟩
      have ho3 : w3.ops = .putOp GH_JSON_PATH fr.2 :: w2.ops := by
        have hh := gh_put_ops w2 GH_JSON_PATH (dumps storage) fr.2
        rw [h3] at hh
        exact hh
      refine ⟨[.putOp GH_JSON_PATH fr.2, .getOp GH_JSON_PATH,
        .putOp GH_JSON_PATH sha], ?_, ?_⟩
      · cases ok2 with
        | true =>
          simp only [h1, h2, h3]
          simp [ho3, ho2, ho1]
        | false =>
          simp only [h1, h2, h3]
          simp [addMsg, ho3, ho2, ho1]
      · intro op hop
        rcases List.mem_cons.mp hop with hh | hop2
        · rw [hh]
          rfl
        · rcases List.mem_cons.mp hop2 with hh | hop3
          · rw [hh]
            rfl
          · rcases List.mem_cons.mp hop3 with hh | hop4
            · rw [hh]
              rfl
            · simp at hop4

theorem save_storage_putCount_other (cfg : Bool) (w : World) (storage : Json)
    (sha : Option Nat) (p : List Char) (hp : p ≠ GH_JSON_PATH) :
    putCount p (save_storage cfg w storage sha).1.ops = putCount p w.ops := by
  rcases save_storage_ops_paths cfg w storage sha with ⟨l, hl, hall⟩
  rw [hl, putCount_append, putCount_eq_zero_of_paths p l
    (fun op hop => by rw [hall op hop]; exact Ne.symm hp)]
  simp

/-- The backup path never collides with the main document path: they
differ at their sixth character. -/
theorem backupPath_ne_json (today : List Char) :
    backupPath today ≠ GH_JSON_PATH := by
  intro h
  have ht : (backupPath today).take 6 = lc "data/b" := by
    rw [backupPath, List.append_assoc, List.append_assoc,
      List.take_append_of_le_length (by decide)]
    rfl
  rw [h] at ht
  exact absurd ht (by decide)

/-- C2: with GitHub configured, a stale marker and the day's snapshot
absent, the first ensure_daily_backup writes the snapshot exactly once
(one remote write to the backup path, the persist touching only the main
document path) and stamps the marker; running it again the same day
observes the marker and changes nothing at all. -/
theorem ensure_daily_backup_idempotent (today : List Char) (st : AppState)
    (ms : List (List Char × Json))
    (hst : st.storage = .obj ms)
    (hmark : (objLookup ms (lc "__last_backup")).any
      (fun v => pyEqStr v today) = false)
    (hmiss : findFile st.world.gh (backupPath today) = none)
    (hnet : st.world.netOk = []) :
    ensure_daily_backup true today (ensure_daily_backup true today st) =
      ensure_daily_backup true today st ∧
    putCount (backupPath today)
        (ensure_daily_backup true today st).world.ops =
      putCount (backupPath today) st.world.ops + 1 := by
  have hget : gh_get_file st.world (backupPath today) =
      ((none, none), logOp st.world (.getOp (backupPath today))) := by
    simp [gh_get_file, popNet, hnet, logOp, hmiss]
  have hput : gh_put_text (logOp st.world (.getOp (backupPath today)))
        (backupPath today) (dumps (.obj ms)) none =
      (true, ghWrite (logOp (logOp st.world (.getOp (backupPath today)))
        (.putOp (backupPath today) none)) (backupPath today)
        (dumps (.obj ms))) := by
    simp [gh_put_text, popNet, hnet, logOp, hmiss, ghWrite]
  have hfirst : ensure_daily_backup true today st = persist true
      { world := ghWrite (logOp (logOp st.world (.getOp (backupPath today)))
          (.putOp (backupPath today) none)) (backupPath today)
          (dumps (.obj ms)),
        storage := .obj (objSet ms (lc "__last_backup") (.str today)),
        sha := st.sha } := by
    simp [ensure_daily_backup, edbE, hst, hmark, hget, hput]
  have hsecond : ∀ st2 : AppState, st2.storage =
      .obj (objSet ms (lc "__last_backup") (.str today)) →
      ensure_daily_backup true today st2 = st2 := by
    intro st2 h2
    have hlook := objLookup_objSet_self ms (lc "__last_backup") (.str today)
    simp [ensure_daily_backup, edbE, h2, hlook, pyEqStr]
  have hcount : ∀ B : AppState, B.world.ops =
      .putOp (backupPath today) none :: .getOp (backupPath today) ::
        st.world.ops →
      putCount (backupPath today) (persist true B).world.ops =
        putCount (backupPath today) st.world.ops + 1 := by
    intro B hB
    have h1 : (persist true B).world.ops =
        (save_storage true B.world B.storage B.sha).1.ops := rfl
    rw [h1, save_storage_putCount_other true B.world B.storage B.sha _
      (backupPath_ne_json today), hB, putCount_cons_put, putCount_cons_get]
    simp
  constructor
  · rw [hfirst]
    exact hsecond _ rfl
  · rw [hfirst]
    exact hcount _ (by simp [ghWrite, logOp])

def backupWorld : World :=
  { gh := [(GH_JSON_PATH, (lc "x", 0))], nextRev := 1, localFile := none,
    netOk := [], ops := [], msgs := 0 }

def backupState : AppState :=
  { world := backupWorld, storage := default_storage, sha := some 0 }

theorem ensure_daily_backup_idempotent_witness :
    (ensure_daily_backup true (lc "20250101")
        (ensure_daily_backup true (lc "20250101") backupState) =
      ensure_daily_backup true (lc "20250101") backupState ∧
    putCount (backupPath (lc "20250101"))
        (ensure_daily_backup true (lc "20250101") backupState).world.ops =
      putCount (backupPath (lc "20250101")) backupState.world.ops + 1) :=
  ensure_daily_backup_idempotent (lc "20250101") backupState
    [(lc "users", .obj []), (lc "sessions", .arr []),
      (lc "__last_backup", .str [])] rfl rfl rfl rfl

/-! ### Save/load round trip -/

/-- C3: saving a storage document with a matching revision token and
reading it back yields a document with the same users mapping and the
same sessions list — the serialise-then-parse round trip preserves both
records. -/
theorem save_load_roundtrip (w : World) (ms : List (List Char × Json))
    (sha0 : Nat) (c0 : List Char) (uv sv : Json)
    (hnet : w.netOk = [])
    (hfile : findFile w.gh GH_JSON_PATH = some (c0, sha0))
    (husers : objLookup ms (lc "users") = some uv)
    (hsess : objLookup ms (lc "sessions") = some sv) :
    ∃ w2 doc,
      load_storage true (save_storage true w (.obj ms) (some sha0)).1 =
        (w2, .ok (.obj doc, some w.nextRev)) ∧
      objLookup doc (lc "users") = some uv ∧
      objLookup doc (lc "sessions") = some sv := by
  have hE : ms.isEmpty = false := by
    cases ms with
    | nil => simp [objLookup] at husers
    | cons a t => rfl
  have e1 : gh_put_text w GH_JSON_PATH (dumps (.obj ms)) (some sha0) =
      (true, ghWrite (logOp w (.putOp GH_JSON_PATH (some sha0))) GH_JSON_PATH
        (dumps (.obj ms))) := by
    simp [gh_put_text, popNet, hnet, logOp, hfile, ghWrite]
  have e2 : gh_get_file (ghWrite (logOp w (.putOp GH_JSON_PATH (some sha0)))
        GH_JSON_PATH (dumps (.obj ms))) GH_JSON_PATH =
      ((some (dumps (.obj ms)), some w.nextRev),
        logOp (ghWrite (logOp w (.putOp GH_JSON_PATH (some sha0))) GH_JSON_PATH
          (dumps (.obj ms))) (.getOp GH_JSON_PATH)) := by
    simp [gh_get_file, popNet, hnet, logOp, ghWrite, findFile_setFile_self]
  have hmain : save_storage true w (.obj ms) (some sha0) =
      (logOp (ghWrite (logOp w (.putOp GH_JSON_PATH (some sha0))) GH_JSON_PATH
        (dumps (.obj ms))) (.getOp GH_JSON_PATH), some w.nextRev) := by
    simp only [save_storage, e1, e2]
    rfl
  have e3 : gh_get_file (logOp (ghWrite (logOp w (.putOp GH_JSON_PATH
        (some sha0))) GH_JSON_PATH (dumps (.obj ms))) (.getOp GH_JSON_PATH))
        GH_JSON_PATH =
      ((some (dumps (.obj ms)), some w.nextRev),
        logOp (logOp (ghWrite (logOp w (.putOp GH_JSON_PATH (some sha0)))
          GH_JSON_PATH (dumps (.obj ms))) (.getOp GH_JSON_PATH))
          (.getOp GH_JSON_PATH)) := by
    simp [gh_get_file, popNet, hnet, logOp, ghWrite, findFile_setFile_self]
  have hpc : parseCore (dumps (.obj ms)) =
      .ok (.obj (setdefault (setdefault (setdefault ms (lc "users") (.obj []))
        (lc "sessions") (.arr [])) (lc "__last_backup") (.str []))) := by
    simp [parseCore, loads_dumps, truthy, hE]
  refine ⟨logOp (logOp (ghWrite (logOp w (.putOp GH_JSON_PATH (some sha0)))
      GH_JSON_PATH (dumps (.obj ms))) (.getOp GH_JSON_PATH))
      (.getOp GH_JSON_PATH),
    setdefault (setdefault (setdefault ms (lc "users") (.obj []))
      (lc "sessions") (.arr [])) (lc "__last_backup") (.str []), ?_, ?_, ?_⟩
  · rw [hmain]
    simp only [load_storage, e3]
    simp [hpc, Except.map]
  · exact objLookup_setdefault_some _ _ _ _ _ (objLookup_setdefault_some _ _ _ _ _
      (objLookup_setdefault_some _ _ _ _ _ husers))
  · exact objLookup_setdefault_some _ _ _ _ _ (objLookup_setdefault_some _ _ _ _ _
      (objLookup_setdefault_some _ _ _ _ _ hsess))

def roundtripWorld : World :=
  { gh := [(GH_JSON_PATH, (lc "x", 7))], nextRev := 8, localFile := none,
    netOk := [], ops := [], msgs := 0 }

def roundtripMembers : List (List Char × Json) :=
  [(lc "users", .obj [(lc "a", .obj [])]), (lc "sessions", .arr [.num 1])]

theorem save_load_roundtrip_witness :
    ∃ w2 doc,
      load_storage true (save_storage true roundtripWorld
          (.obj roundtripMembers) (some 7)).1 =
        (w2, .ok (.obj doc, some roundtripWorld.nextRev)) ∧
      objLookup doc (lc "users") = some (.obj [(lc "a", .obj [])]) ∧
      objLookup doc (lc "sessions") = some (.arr [.num 1]) :=
  save_load_roundtrip roundtripWorld roundtripMembers 7 (lc "x")
    (.obj [(lc "a", .obj [])]) (.arr [.num 1]) rfl rfl rfl rfl

/-! ### Failure degradation and the three-field invariant -/

/-- A remote document whose JSON is a (truthy) list. -/
def listStorageWorld : World :=
  { gh := [(GH_JSON_PATH, (lc "[1]", 1))], nextRev := 2, localFile := none,
    netOk := [], ops := [], msgs := 0 }

/-- C6 counterexample: a stored text that parses to a truthy non-dict
makes load_storage raise AttributeError — the setdefault calls sit
outside the try/except around json.loads, so this failure does not
degrade to a fallback. -/
theorem load_storage_raises_cex :
    (load_storage true listStorageWorld).2 =
      .error PyErr.attributeError := by
  rfl

/-- C6 (amended): the handled failures do degrade: any exception inside
the backup body becomes one warning; a save whose retry also fails
writes the local fallback file, shows one error message and keeps the
held token; a load whose read and init write both fail transport falls
back to creating and reading the local file, with two warnings.  But a
stored text parsing to a truthy non-dict escapes load_storage as an
AttributeError. -/
theorem storage_failures_nonfatal_spec (cfg : Bool) (today : List Char)
    (st : AppState) (e : PyErr) (w w2 : World) (storage : Json)
    (sha : Option Nat)
    (hedb : edbE cfg today st = .error e)
    (hw : w.netOk = [false, true, false])
    (hw2 : w2.netOk = [false, false]) (hl2 : w2.localFile = none) :
    ensure_daily_backup cfg today st = { st with world := addMsg st.world } ∧
    ((save_storage true w storage sha).1.localFile = some (dumps storage) ∧
     (save_storage true w storage sha).1.msgs = w.msgs + 1 ∧
     (save_storage true w storage sha).2 = sha) ∧
    ((load_storage true w2).2 = .ok (default_storage, none) ∧
     (load_storage true w2).1.localFile = some (dumps default_storage) ∧
     (load_storage true w2).1.msgs = w2.msgs + 2) := by
  refine ⟨?_, ?_, ?_⟩
  · simp [ensure_daily_backup, hedb]
  · cases hf : findFile w.gh GH_JSON_PATH with
    | none =>
      simp [save_storage, gh_put_text, gh_get_file, popNet, hw, logOp,
        addMsg, hf]
    | some f =>
      simp [save_storage, gh_put_text, gh_get_file, popNet, hw, logOp,
        addMsg, hf]
  · have hpcd : parseCore (dumps default_storage) = .ok default_storage := by
      have h1 : loads (dumps default_storage) = some default_storage :=
        loads_dumps _
      simp only [parseCore, h1]
      rfl
    simp [load_storage, gh_get_file, gh_put_text, popNet, hw2, logOp,
      addMsg, loadLocal, hl2, hpcd, Except.map]

def emptyWorld : World :=
  { gh := [], nextRev := 0, localFile := none, netOk := [], ops := [],
    msgs := 0 }

def numState : AppState :=
  { world := emptyWorld, storage := .num 1, sha := none }

def badNetWorld : World :=
  { gh := [], nextRev := 0, localFile := none, netOk := [false, true, false],
    ops := [], msgs := 0 }

def badNetWorld2 : World :=
  { gh := [], nextRev := 0, localFile := none, netOk := [false, false],
    ops := [], msgs := 0 }

theorem storage_failures_nonfatal_spec_witness :
    (ensure_daily_backup true (lc "20250101") numState =
      { numState with world := addMsg numState.world } ∧
    ((save_storage true badNetWorld default_storage none).1.localFile =
        some (dumps default_storage) ∧
     (save_storage true badNetWorld default_storage none).1.msgs =
        badNetWorld.msgs + 1 ∧
     (save_storage true badNetWorld default_storage none).2 = none) ∧
    ((load_storage true badNetWorld2).2 = .ok (default_storage, none) ∧
     (load_storage true badNetWorld2).1.localFile =
        some (dumps default_storage) ∧
     (load_storage true badNetWorld2).1.msgs = badNetWorld2.msgs + 2)) :=
  storage_failures_nonfatal_spec true (lc "20250101") numState
    PyErr.attributeError badNetWorld badNetWorld2 default_storage none
    rfl rfl rfl rfl

/-- A remote document whose JSON is the (truthy) bare literal true. -/
def trueStorageWorld : World :=
  { gh := [(GH_JSON_PATH, (lc "true", 1))], nextRev := 2,
    localFile := none, netOk := [], ops := [], msgs := 0 }

/-- C8 counterexample: for a stored text parsing to a truthy non-dict,
load_storage returns no document at all — it raises AttributeError
instead of defaulting the three fields. -/
theorem load_storage_fields_cex :
    (load_storage true trueStorageWorld).2 =
      .error PyErr.attributeError := by
  rfl

/-- Whenever the stored text parses to a falsy value, fails to parse, or
parses to a dict, the parsed-and-defaulted document carries all three
top-level fields. -/
theorem parseCore_fields (txt : List Char)
    (hobj : ∀ v, loads txt = some v → truthy v = true → ∃ ms, v = .obj ms) :
    ∃ doc, parseCore txt = .ok (.obj doc) ∧
      hasKey doc (lc "users") = true ∧ hasKey doc (lc "sessions") = true ∧
      hasKey doc (lc "__last_backup") = true := by
  cases hv : loads txt with
  | none =>
    refine ⟨[(lc "users", .obj []), (lc "sessions", .arr []),
      (lc "__last_backup", .str [])], ?_, rfl, rfl, rfl⟩
    simp only [parseCore, hv]
    rfl
  | some v =>
    by_cases ht : truthy v = true
    · rcases hobj v hv ht with ⟨ms, rfl⟩
      refine ⟨setdefault (setdefault (setdefault ms (lc "users") (.obj []))
        (lc "sessions") (.arr [])) (lc "__last_backup") (.str []),
        ?_, ?_, ?_, ?_⟩
      · simp [parseCore, hv, ht]
      · exact hasKey_setdefault_mono _ _ _ _ (hasKey_setdefault_mono _ _ _ _
          (hasKey_setdefault_self ms (lc "users") (.obj [])))
      · exact hasKey_setdefault_mono _ _ _ _
          (hasKey_setdefault_self _ (lc "sessions") (.arr []))
      · exact hasKey_setdefault_self _ (lc "__last_backup") (.str [])
    · have ht2 : truthy v = false := by
        simpa using ht
      refine ⟨[(lc "users", .obj []), (lc "sessions", .arr []),
        (lc "__last_backup", .str [])], ?_, rfl, rfl, rfl⟩
      simp only [parseCore, hv, ht2]
      rfl

/-- C8 (amended): for every stored text that does not parse to a truthy
non-dict — missing fields, unparseable text and falsy documents included
— load_storage returns a document carrying all three top-level fields,
defaulting each missing one. -/
theorem load_storage_fields_spec (w : World) (txt : List Char) (r : Nat)
    (hnet : w.netOk = [])
    (hfile : findFile w.gh GH_JSON_PATH = some (txt, r))
    (hobj : ∀ v, loads txt = some v → truthy v = true → ∃ ms, v = .obj ms) :
    ∃ w1 doc, load_storage true w = (w1, .ok (.obj doc, some r)) ∧
      hasKey doc (lc "users") = true ∧ hasKey doc (lc "sessions") = true ∧
      hasKey doc (lc "__last_backup") = true := by
  rcases parseCore_fields txt hobj with ⟨doc, hpc, h1, h2, h3⟩
  have hget : gh_get_file w GH_JSON_PATH =
      ((some txt, some r), logOp w (.getOp GH_JSON_PATH)) := by
    simp [gh_get_file, popNet, hnet, logOp, hfile]
  refine ⟨logOp w (.getOp GH_JSON_PATH), doc, ?_, h1, h2, h3⟩
  simp only [load_storage, hget]
  simp [hpc, Except.map]

def zeroStorageWorld : World :=
  { gh := [(GH_JSON_PATH, (lc "0", 2))], nextRev := 3, localFile := none,
    netOk := [], ops := [], msgs := 0 }

theorem load_storage_fields_spec_witness :
    ∃ w1 doc, load_storage true zeroStorageWorld =
        (w1, .ok (.obj doc, some 2)) ∧
      hasKey doc (lc "users") = true ∧ hasKey doc (lc "sessions") = true ∧
      hasKey doc (lc "__last_backup") = true :=
  load_storage_fields_spec zeroStorageWorld (lc "0") 2 rfl rfl
    (by
      intro v hv ht
      rw [show loads (lc "0") = some (.num 0) from rfl] at hv
      cases hv
      exact absurd ht (by decide))

end GS
